import Mathlib

/-!
Shallow embedding of the `script-rs` scripting-language implementation
(lexer/parser/compiler/VM pipeline in Rust) and proofs about its
specification claims.

Modelling conventions, used consistently below:

* Rust `Vec<T>` with `push`/`pop` at the back is modelled as `List T`
  with the *back of the vector at the head of the list*: `push` is cons,
  `pop` takes the head.  The operand stack, the GC work list and the
  free list all follow this convention (the stack list is top-first).
* Rust `HashMap<String, HeapPtr>` is modelled as an association list;
  `insert` replaces an existing binding.  Iteration order of a Rust
  `HashMap` is unspecified, the association-list order is one refinement
  of it.
* `i64` arithmetic is modelled on `Int`, wrapping with `wrap64`
  (release-profile overflow semantics); `usize → i64` casts wrap the
  same way.  Division and remainder panic on a zero divisor and on
  `i64::MIN / -1`, modelled by the `abort` result.
* A Rust panic (index out of bounds, arithmetic fault, `unimplemented`
  paths, unbounded recursion overflowing the call stack) is modelled by
  a dedicated `abort` / `none` result, distinct from the `Error` values
  the program itself returns.
* `Value::cmp` can recurse unboundedly on cyclic heap structures, so it
  is modelled with an explicit recursion-depth fuel; `none` means the
  recursion does not bottom out at that depth.
* Printing with `print!`/`println!` is modelled by an output log of
  string chunks carried in the VM state.
-/

namespace Script

/-- Token kinds (`token.rs`, enum `Kind`).  `if`/`else`/`while`/`for`/`fun`
are Lean keywords and are prefixed with `k`. -/
inductive Kind where
  | int | str | id
  | kIf | kElse | kWhile | kFor | kFun
  | add | sub | mul | div | mod
  | lt | lte | gt | gte | assign | eq | not | notEq
  | lpar | rpar | lbraces | rbraces | lbracket | rbracket
  | semi | comma
deriving DecidableEq

/-- A token (`token.rs`, struct `Token`): kind, verbatim lexeme, byte span.
The Rust field `at` is a Lean keyword; it is called `span` here. -/
structure Token where
  kind : Kind
  value : String
  span : Nat × Nat
deriving DecidableEq

/-- AST nodes (`ast.rs`, enum `Ast`). -/
inductive Ast where
  /-- literal integer -/
  | int (n : Int) (tk : Token)
  /-- literal string -/
  | str (s : String) (tk : Token)
  /-- literal list -/
  | lst (elems : List Ast) (tk : Token)
  /-- variable name -/
  | var (name : String) (tk : Token)
  /-- binary operator -/
  | binOp (tk : Token) (lhs rhs : Ast)
  /-- loop (keyword, starting, comparison, body, updating) -/
  | loop (tk : Token) (st : Option Ast) (cmp : Option Ast) (body : Ast) (up : Option Ast)
  /-- if / else -/
  | ifElse (tk : Token) (cond : Ast) (ifTrue : Ast) (ifFalse : Option Ast)
  /-- a block is a sequence of statements -/
  | block (tk : Token) (asts : List Ast)
  /-- expression wrapped as statement -/
  | sttm (inner : Ast)
  /-- function call -/
  | call (tk : Token) (callee : Ast) (args : List Ast)
  /-- indexing -/
  | index (tk : Token) (target : Ast) (idx : Ast)

/-- Native operations defined directly in the VM (`opcodes.rs`, enum `Native`). -/
inductive Native where
  | print | toStr | length | append | dumpStack
deriving DecidableEq

/-- Opcodes (`opcodes.rs`, enum `Op`).  `Native::ToString` is `toStr` above. -/
inductive Op where
  /-- jump target; must not be present in final compiled code -/
  | target (id : Nat)
  | nop
  /-- call a native operation: (number of args, which call) -/
  | native (nargs : Nat) (op : Native)
  | pushI (n : Int)
  | pushS (s : String)
  /-- make top `n` stack elements into a `Value::List` -/
  | makeList (n : Nat)
  | index
  | indexStore
  | dup (i : Nat)
  | pop
  | loadG (name : String)
  /-- store into a global, keeping the pointer on the stack -/
  | storeG (name : String)
  /-- move into a global, popping the stack -/
  | moveG (name : String)
  | lt | lte | gt | gte | eq | neq
  | jmpF (pc : Nat)
  | jmp (pc : Nat)
  | add | sub | mul | div | mod
deriving DecidableEq

/-- A pointer into the managed heap (`vm.rs`, struct `HeapPtr`): an index. -/
abbrev HeapPtr := Nat

/-- Values supported by the script and its VM (`value.rs`, enum `Value`). -/
inductive Value where
  | int (n : Int)
  | str (s : String)
  | list (ptrs : List HeapPtr)
deriving DecidableEq

/-- The error taxonomy (`errors.rs`, enum `Error`). -/
inductive Error where
  | stackUnderflow
  | memoryAccessOutOfRange (p : HeapPtr)
  | invalidMemoryAccess (p : HeapPtr)
  | globalNotFound (name : String)
  | incompatibleOperands (op : Op) (lhs rhs : Value)
  | indexOutOfRange (v : Value) (i : Nat)
  | invalidOpCode (pc : Nat)
  | invalidAppend (target : Value)
  | jumpTargetNotFound (id : Nat)
  | syntaxError (at_ : Nat)
  | unexpectedEOF
  | invalidStringEscape (c : Char) (at_ : Nat)
  | parsingError (tk : Token)
  | unexpectedToken (tk : Token) (possible : List Kind)
  | invalidAssignmentTarget (ast : Ast)
  | notEnoughArguments (ast : Ast) (name : String) (given expected : Nat)

/-- Result of running a piece of code: `abort` models a Rust panic, the
other two model `Err(e)` and `Ok(a)` of `errors::Result`. -/
inductive RRes (α : Type) where
  | abort
  | error (e : Error)
  | ok (a : α)

/-- Two's-complement wrap-around of `i64` arithmetic on `Int`. -/
def wrap64 (x : Int) : Int := x.bmod (2 ^ 64)

/-- The managed heap: a slot is `none` if previously allocated but
released during a collection (`vm.rs`, field `VM::heap`). -/
abbrev Heap := List (Option Value)

/-- `VM::get`: the value of `ptr` on the heap, or an error.  The first
error is the out-of-range case, the second the empty-slot case. -/
def heapGet (heap : Heap) (p : HeapPtr) : Except Error Value :=
  match heap[p]? with
  | none => .error (.memoryAccessOutOfRange p)
  | some none => .error (.invalidMemoryAccess p)
  | some (some v) => .ok v

/-- `Value::mark`: all `HeapPtr` directly accessible from a value, in the
order the Rust code pushes them onto the mark work list. -/
def Value.mark : Value → List HeapPtr
  | .list ptrs => ptrs
  | _ => []

/-- `Value::is_false`: `true` iff the value is the integer 0. -/
def Value.isFalse : Value → Bool
  | .int n => n == 0
  | _ => false

/-- `Value::type_name`. -/
def Value.typeName : Value → String
  | .int _ => "integer"
  | .str _ => "string"
  | .list _ => "list"

/-- `Value::length`: 0 for integers, code-point count for strings,
element count for lists. -/
def Value.length : Value → Nat
  | .int _ => 0
  | .str s => s.length
  | .list ptrs => ptrs.length

mutual

/-- `Value::fmt`, together with `fmtElems` for its element loop.  The
recursion is bounded by the depth guard (`depth > 3` prints `"[...]"`),
so the function is total even on cyclic heap structures; Lean accepts it
by the decreasing measure below, which is exactly that guard.
`Value::fmt` receives the whole VM but reads only the heap. -/
def fmt (heap : Heap) : Value → Nat → Except Error String
  | .int n, _ => .ok (toString n)
  | .str s, _ => .ok s
  | .list lst, depth =>
    if _h : depth > 3 then
      .ok "[...]"
    else
      match fmtElems heap (depth + 1) lst true with
      | .error e => .error e
      | .ok inner => .ok ("[" ++ inner ++ "]")
termination_by _v depth => (5 - depth, 0)
decreasing_by
  all_goals simp_wf
  all_goals omega

/-- The element loop of `Value::fmt`: `e` is the depth the elements are
formatted at (`depth + 1` at the call site), `first` suppresses the
leading `", "` separator of the first element. -/
def fmtElems (heap : Heap) (e : Nat) : List HeapPtr → Bool → Except Error String
  | [], _ => .ok ""
  | p :: ps, first =>
    match heapGet heap p with
    | .error err => .error err
    | .ok v =>
      match fmt heap v e with
      | .error err => .error err
      | .ok s =>
        match fmtElems heap e ps false with
        | .error err => .error err
        | .ok rest => .ok ((if first then "" else ", ") ++ s ++ rest)
termination_by lst _first => (5 - e, lst.length + 1)
decreasing_by
  all_goals simp_wf
  all_goals omega

end

mutual

/-- `Value::cmp`, with an explicit recursion-depth fuel (`none` = the
recursion does not bottom out within `fuel` nested calls; in Rust this
is an unbounded recursion that overflows the call stack on cyclic
structures).  `cmpList` is the element loop of the list/list arm:
it walks the common prefix and then breaks the tie by length. -/
def cmpF : Nat → Heap → Value → Value → Option (Except Error Int)
  | 0, _, _, _ => none
  | _ + 1, _, .int a, .int b =>
    some (.ok (if a < b then -1 else if a > b then 1 else 0))
  | _ + 1, _, .str a, .str b =>
    some (.ok (if a < b then -1 else if a > b then 1 else 0))
  | fuel + 1, heap, .list a, .list b => cmpList fuel heap a b
  | _ + 1, _, a, b => some (.error (.incompatibleOperands .lt a b))
termination_by fuel _ _ _ => (fuel, 0)
decreasing_by
  all_goals simp_wf
  all_goals omega

def cmpList (fuel : Nat) (heap : Heap) : List HeapPtr → List HeapPtr → Option (Except Error Int)
  | [], [] => some (.ok 0)
  | [], _ :: _ => some (.ok (-1))
  | _ :: _, [] => some (.ok 1)
  | p :: ps, q :: qs =>
    match heapGet heap p with
    | .error e => some (.error e)
    | .ok av =>
      match heapGet heap q with
      | .error e => some (.error e)
      | .ok bv =>
        match cmpF fuel heap av bv with
        | none => none
        | some (.error e) => some (.error e)
        | some (.ok c) => if c ≠ 0 then some (.ok c) else cmpList fuel heap ps qs
termination_by a _ => (fuel, a.length + 1)
decreasing_by
  all_goals simp_wf
  all_goals omega

end

/-- `Value::add`. -/
def Value.add : Value → Value → RRes Value
  | .int a, .int b => .ok (.int (wrap64 (a + b)))
  | .str a, .str b => .ok (.str (a ++ b))
  | .list a, .list b => .ok (.list (a ++ b))
  | a, b => .error (.incompatibleOperands .add a b)

/-- `Value::sub`. -/
def Value.sub : Value → Value → RRes Value
  | .int a, .int b => .ok (.int (wrap64 (a - b)))
  | a, b => .error (.incompatibleOperands .sub a b)

/-- `Value::mul`. -/
def Value.mul : Value → Value → RRes Value
  | .int a, .int b => .ok (.int (wrap64 (a * b)))
  | .str a, .int b => if b ≥ 0 then .ok (.str (String.join (List.replicate b.toNat a)))
      else .error (.incompatibleOperands .mul (.str a) (.int b))
  | .list a, .int b => if b ≥ 0 then .ok (.list (List.flatten (List.replicate b.toNat a)))
      else .error (.incompatibleOperands .mul (.list a) (.int b))
  | a, b => .error (.incompatibleOperands .mul a b)

/-- `Value::div`: Rust `i64` division panics on a zero divisor and on the
overflowing `i64::MIN / -1`; both are the `abort` result. -/
def Value.div : Value → Value → RRes Value
  | .int a, .int b =>
    if b = 0 ∨ (a = -(2 ^ 63) ∧ b = -1) then .abort
    else .ok (.int (Int.tdiv a b))
  | a, b => .error (.incompatibleOperands .div a b)

/-- `Value::mod` (Rust `r#mod`): same fault conditions as division. -/
def Value.mod : Value → Value → RRes Value
  | .int a, .int b =>
    if b = 0 ∨ (a = -(2 ^ 63) ∧ b = -1) then .abort
    else .ok (.int (Int.tmod a b))
  | a, b => .error (.incompatibleOperands .mod a b)

/-- The `usize` value of an `i64 as usize` cast (used by the indexing
opcodes): the two's-complement bit pattern read as unsigned. -/
def usizeOfI64 (i : Int) : Nat := (i.emod (2 ^ 64)).toNat

/-- The VM state (`vm.rs`, struct `VM`), plus an output log modelling
what `print!`/`println!` wrote to standard output.  `stack` and
`freeList` are head-first models of Rust `Vec`s (head = `Vec` back),
`top` is an association-list model of the globals `HashMap`. -/
structure VMSt where
  heap : Heap
  stack : List HeapPtr
  top : List (String × HeapPtr)
  freeList : List Nat
  output : List String

/-- The pointers bound in the globals table, in iteration order of the
model (`self.top.values()`). -/
def topValues (top : List (String × HeapPtr)) : List HeapPtr := top.map Prod.snd

/-- `HashMap::insert`: replace an existing binding or add a new one. -/
def topInsert (top : List (String × HeapPtr)) (name : String) (p : HeapPtr) :
    List (String × HeapPtr) :=
  match top with
  | [] => [(name, p)]
  | (k, v) :: rest =>
    if k = name then (name, p) :: rest else (k, v) :: topInsert rest name p

/-- `HashMap::get` on the globals table. -/
def topGet (top : List (String × HeapPtr)) (name : String) : Option HeapPtr :=
  (top.find? (fun kv => kv.1 == name)).map Prod.snd

/-- The mark-phase work-list loop of `VM::collect`: pop a pointer; if it
is unmarked and its slot holds a value, mark it and push the value's
pointers.  `none` models the panic of `marked[ptr.0]` on an
out-of-range pointer.  (In `collect` itself `marked` and `heap` have the
same length, so the inner `heap[p]?  = none` arm is unreachable there.)
Termination: every pushed batch follows a fresh mark, so the count of
unmarked slots, then the work-list length, decreases. -/
def markLoop (heap : Heap) (marked : List Bool) (ws : List HeapPtr) : Option (List Bool) :=
  match ws with
  | [] => some marked
  | p :: rest =>
    if h : p < marked.length then
      if hm : marked[p] then
        markLoop heap marked rest
      else
        match heap[p]? with
        | none => none
        | some none => markLoop heap marked rest
        | some (some v) => markLoop heap (marked.set p true) (v.mark.reverse ++ rest)
    else none
termination_by (marked.count false, ws.length)
decreasing_by
  · simp_wf; omega
  · simp_wf; omega
  · simp_wf
    left
    -- marking a previously unmarked slot decreases the unmarked count
    have key : ∀ (l : List Bool) (i : Nat), l[i]? = some false →
        (l.set i true).count false < l.count false := by
      intro l
      induction l with
      | nil => intro i h1; simp at h1
      | cons b bs ih =>
        intro i h1
        cases i with
        | zero =>
          simp at h1
          subst h1
          simp [List.count_cons]
        | succ n =>
          simp at h1
          have := ih n h1
          simp [List.count_cons]
          omega
    have hpf : marked[p]? = some false := by
      rw [List.getElem?_eq_getElem h]
      simpa using hm
    exact key marked p hpf

/-- `VM::collect`: mark-and-sweep with the operand stack and the globals
as roots.  The root vector is built by pushing the stack entries and
then the global bindings; reversing turns `Vec` push order into the
head-first pop order of the model.  The sweep clears every unmarked slot
and rebuilds the free list from their indices (pushed in ascending
order, so the head of the model free list is the largest index). -/
def collect (st : VMSt) : Option VMSt :=
  let roots := (st.stack.reverse ++ topValues st.top).reverse
  match markLoop st.heap (List.replicate st.heap.length false) roots with
  | none => none
  | some marked =>
    let heap' := st.heap.enum.map (fun iv => if marked.getD iv.1 false then iv.2 else none)
    let freeAsc := (List.range st.heap.length).filter (fun i => !(marked.getD i false))
    some { st with heap := heap', freeList := freeAsc.reverse }

/-- `VM::find_free_slot`: pop the free list; if it is empty, collect and
retry; if still empty, grow the heap by one (still unmarked) slot. -/
def findFreeSlot (st : VMSt) : Option (Nat × VMSt) :=
  match st.freeList with
  | i :: rest => some (i, { st with freeList := rest })
  | [] =>
    match collect st with
    | none => none
    | some st1 =>
      match st1.freeList with
      | i :: rest => some (i, { st1 with freeList := rest })
      | [] => some (st1.heap.length, { st1 with heap := st1.heap ++ [none] })

/-- `VM::store_heap`: `heap[index] = Some(value)`; out of range panics. -/
def storeHeap (st : VMSt) (i : Nat) (v : Value) : Option VMSt :=
  if i < st.heap.length then some { st with heap := st.heap.set i (some v) } else none

/-- `VM::push_value`: allocate a slot for the value and push the pointer. -/
def pushValue (st : VMSt) (v : Value) : Option (HeapPtr × VMSt) :=
  match findFreeSlot st with
  | none => none
  | some (i, st1) =>
    match storeHeap st1 i v with
    | none => none
    | some st2 => some (i, { st2 with stack := i :: st2.stack })

/-- `VM::dup`: the pointer at depth `i` from the top of the stack
(`stack[len - i - 1]` in Rust, `stack[i]` in the head-first model). -/
def dup (st : VMSt) (i : Nat) : Except Error HeapPtr :=
  if h : i < st.stack.length then .ok st.stack[i] else .error .stackUnderflow

/-- `VM::dup_value`. -/
def dupValue (st : VMSt) (i : Nat) : Except Error Value :=
  match dup st i with
  | .error e => .error e
  | .ok p => heapGet st.heap p

/-- One dispatch step of `VM::run` ends in a panic, an error (keeping the
state as mutated so far, as the Rust `?` operator does on `&mut self`),
or the next program counter and state. -/
inductive StepOut where
  | abort
  | error (e : Error) (st : VMSt)
  | next (pc : Nat) (st : VMSt)

/-- The VM invokes `Value::cmp` with the Rust call stack as its only
bound.  The model passes fuel `heap.length + 1`: an acyclic chain of
dereferences visits pairwise distinct slots, so this fuel never runs out
on it, while a deeper chain revisits a slot, the Rust recursion never
bottoms out, and the process dies of stack overflow — the `abort`. -/
def cmpVM (st : VMSt) (a b : Value) : RRes Int :=
  match cmpF (st.heap.length + 1) st.heap a b with
  | none => .abort
  | some (.error e) => .error e
  | some (.ok c) => .ok c

/-- The shared pop-pop-get-get-apply-push shape of the arithmetic and
comparison arms of `VM::run` (`bptr` is popped first, then `aptr`). -/
def binStep (st : VMSt) (pc : Nat) (f : VMSt → Value → Value → RRes Value) : StepOut :=
  match st.stack with
  | [] => .error .stackUnderflow st
  | bptr :: rest1 =>
    match rest1 with
    | [] => .error .stackUnderflow { st with stack := rest1 }
    | aptr :: rest2 =>
      let st2 := { st with stack := rest2 }
      match heapGet st2.heap bptr with
      | .error e => .error e st2
      | .ok b =>
        match heapGet st2.heap aptr with
        | .error e => .error e st2
        | .ok a =>
          match f st2 a b with
          | .abort => .abort
          | .error e => .error e st2
          | .ok c =>
            match pushValue st2 c with
            | none => .abort
            | some (_, st3) => .next (pc + 1) st3

/-- A comparison arm of `VM::run`: compare, then push integer 1 or 0
according to `rel` applied to the comparison result. -/
def cmpOpStep (st : VMSt) (pc : Nat) (rel : Int → Bool) : StepOut :=
  binStep st pc (fun s a b =>
    match cmpVM s a b with
    | .abort => .abort
    | .error e => .error e
    | .ok c => .ok (.int (if rel c then 1 else 0)))

/-- Outcome of evaluating the `value` expression of the `Op::Native` arm
(before the argument pops and the result push). -/
inductive NatOut where
  | abort
  | error (e : Error) (st : VMSt)
  | ok (v : Value) (st : VMSt)

/-- The argument loop of `Native::Print`: format `dup_value(d)` for each
depth `d` in the list; chunks printed before a failing argument stay
printed (the returned list), the failure is the returned error. -/
def printFold (st : VMSt) : List Nat → List String × Option Error
  | [] => ([], none)
  | d :: rest =>
    match dupValue st d with
    | .error e => ([], some e)
    | .ok v =>
      match fmt st.heap v 0 with
      | .error e => ([], some e)
      | .ok s =>
        let (out, err) := printFold st rest
        (s :: out, err)

/-- The argument-collecting loop of `Native::Append`
(`for i in 1..nargs { to_add.push(self.dup(nargs - i - 1)?) }`):
re-indexed by the dup depth `d := nargs - i - 1`, which counts down from
`nargs - 2` to 0, so `appendArgs st (nargs - 1)` collects the same
pointers in the same order and fails on the same first `dup`. -/
def appendArgs (st : VMSt) : Nat → Except Error (List HeapPtr)
  | 0 => .ok []
  | d + 1 =>
    match dup st d with
    | .error e => .error e
    | .ok p =>
      match appendArgs st d with
      | .error e => .error e
      | .ok ps => .ok (p :: ps)

/-- The `println!("{:?}", self.stack)` rendering of `Native::DumpStack`
(the debug format of `Vec<HeapPtr>`, front of the vector first). -/
def dumpStackStr (stack : List HeapPtr) : String :=
  "[" ++ String.intercalate ", "
    (stack.reverse.map (fun p => "HeapPtr(" ++ toString p ++ ")")) ++ "]"

/-- The `value` computation of the `Op::Native` arm of `VM::run`, for a
call with `k` arguments.  Argument `i` of the call sits at stack depth
`k - i - 1`. -/
def nativeEval (st : VMSt) (k : Nat) : Native → NatOut
  | .print =>
    let (chunks, err) := printFold st ((List.range k).map (fun i => k - i - 1))
    match err with
    | some e => .error e { st with output := st.output ++ chunks }
    | none => .ok (.int (wrap64 k)) { st with output := st.output ++ chunks ++ ["\n"] }
  | .length =>
    match dupValue st 0 with
    | .error e => .error e st
    | .ok v => .ok (.int (wrap64 v.length)) st
  | .toStr =>
    match dupValue st 0 with
    | .error e => .error e st
    | .ok v =>
      match fmt st.heap v 0 with
      | .error e => .error e st
      | .ok s => .ok (.str s) st
  | .append =>
    match appendArgs st (k - 1) with
    | .error e => .error e st
    | .ok toAdd =>
      -- `let target = self.dup_value_mut(nargs - 1)?`
      match k with
      | 0 => .abort -- `nargs - 1` underflows `usize`: a panic in a debug build
      | k0 + 1 =>
        match dup st k0 with
        | .error e => .error e st
        | .ok tptr =>
          match heapGet st.heap tptr with
          | .error e => .error e st
          | .ok (Value.list l) =>
            let newLst := l ++ toAdd
            .ok (.int (wrap64 newLst.length))
              { st with heap := st.heap.set tptr (some (.list newLst)) }
          | .ok v => .error (.invalidAppend v) st
  | .dumpStack =>
    if k > 0 then
      match dupValue st 0 with
      | .error e => .error e st
      | .ok v =>
        match fmt st.heap v 0 with
        | .error e => .error e st
        | .ok s =>
          .ok (.int (wrap64 st.stack.length))
            { st with output := st.output ++ [s ++ " ", dumpStackStr st.stack ++ "\n"] }
    else
      .ok (.int (wrap64 st.stack.length))
        { st with output := st.output ++ ["STACK> ", dumpStackStr st.stack ++ "\n"] }

/-- The argument-popping loop after a native call (`for _ in 0..nargs`):
stops at the first underflow, leaving the stack partially popped. -/
def popN : Nat → VMSt → VMSt × Option Error
  | 0, st => (st, none)
  | n + 1, st =>
    match st.stack with
    | [] => (st, some .stackUnderflow)
    | _ :: rest => popN n { st with stack := rest }

/-- One iteration of the dispatch loop of `VM::run` for opcode `op` at
program counter `pc`: `next_pc` defaults to `pc + 1`, jumps overwrite it. -/
def step (op : Op) (pc : Nat) (st : VMSt) : StepOut :=
  match op with
  | .nop => .next (pc + 1) st
  | .target _ => .error (.invalidOpCode pc) st
  | .pushI n =>
    match pushValue st (.int n) with
    | none => .abort
    | some (_, st1) => .next (pc + 1) st1
  | .pushS s =>
    match pushValue st (.str s) with
    | none => .abort
    | some (_, st1) => .next (pc + 1) st1
  | .dup i =>
    match dup st i with
    | .error e => .error e st
    | .ok p => .next (pc + 1) { st with stack := p :: st.stack }
  | .pop =>
    match st.stack with
    | [] => .error .stackUnderflow st
    | _ :: rest => .next (pc + 1) { st with stack := rest }
  | .loadG s =>
    match topGet st.top s with
    | none => .error (.globalNotFound s) st
    | some p => .next (pc + 1) { st with stack := p :: st.stack }
  | .storeG s =>
    match dup st 0 with
    | .error e => .error e st
    | .ok p => .next (pc + 1) { st with top := topInsert st.top s p }
  | .moveG s =>
    match st.stack with
    | [] => .error .stackUnderflow st
    | p :: rest => .next (pc + 1) { st with stack := rest, top := topInsert st.top s p }
  | .makeList n =>
    match findFreeSlot st with
    | none => .abort
    | some (i, st1) =>
      if n ≤ st1.stack.length then
        -- `split_off(len - n)`: detach the top `n` pointers; as a list
        -- value they appear in bottom-to-top order.
        match storeHeap { st1 with stack := st1.stack.drop n } i
            (.list (st1.stack.take n).reverse) with
        | none => .abort
        | some st2 => .next (pc + 1) { st2 with stack := i :: st2.stack }
      else
        -- `self.stack.len() - n` underflows and `split_off` panics
        .abort
  | .jmpF t =>
    match st.stack with
    | [] => .error .stackUnderflow st
    | p :: rest =>
      let st1 := { st with stack := rest }
      match heapGet st1.heap p with
      | .error e => .error e st1
      | .ok v => if v.isFalse then .next t st1 else .next (pc + 1) st1
  | .jmp t => .next t st
  | .native k nativeOp =>
    match nativeEval st k nativeOp with
    | .abort => .abort
    | .error e st1 => .error e st1
    | .ok v st1 =>
      match popN k st1 with
      | (st2, some e) => .error e st2
      | (st2, none) =>
        match pushValue st2 v with
        | none => .abort
        | some (_, st3) => .next (pc + 1) st3
  | .lt => cmpOpStep st pc (fun c => decide (c < 0))
  | .lte => cmpOpStep st pc (fun c => decide (c ≤ 0))
  | .gt => cmpOpStep st pc (fun c => decide (c > 0))
  | .gte => cmpOpStep st pc (fun c => decide (c ≥ 0))
  | .eq => cmpOpStep st pc (fun c => decide (c = 0))
  | .neq => cmpOpStep st pc (fun c => decide (c ≠ 0))
  | .add => binStep st pc (fun _ a b => a.add b)
  | .sub => binStep st pc (fun _ a b => a.sub b)
  | .mul => binStep st pc (fun _ a b => a.mul b)
  | .div => binStep st pc (fun _ a b => a.div b)
  | .mod => binStep st pc (fun _ a b => a.mod b)
  | .index =>
    match st.stack with
    | [] => .error .stackUnderflow st
    | bptr :: rest1 =>
      match rest1 with
      | [] => .error .stackUnderflow { st with stack := rest1 }
      | aptr :: rest2 =>
        let st2 := { st with stack := rest2 }
        match heapGet st2.heap bptr with
        | .error e => .error e st2
        | .ok b =>
          match heapGet st2.heap aptr with
          | .error e => .error e st2
          | .ok a =>
            match a, b with
            | .str s, .int i =>
              match s.data[usizeOfI64 i]? with
              | none => .error (.indexOutOfRange (.str s) (usizeOfI64 i)) st2
              | some ch =>
                match pushValue st2 (.int ch.toNat) with
                | none => .abort
                | some (_, st3) => .next (pc + 1) st3
            | .list lst, .int i =>
              match lst[usizeOfI64 i]? with
              | none => .error (.indexOutOfRange (.list lst) (usizeOfI64 i)) st2
              | some p => .next (pc + 1) { st2 with stack := p :: st2.stack }
            | _, _ => .error (.incompatibleOperands .index a b) st2
  | .indexStore =>
    match st.stack with
    | [] => .error .stackUnderflow st
    | cptr :: rest1 =>
      match rest1 with
      | [] => .error .stackUnderflow { st with stack := rest1 }
      | bptr :: rest2 =>
        let st2 := { st with stack := rest2 }
        match dup st2 0 with
        | .error e => .error e st2
        | .ok aptr =>
          match heapGet st2.heap bptr with
          | .error e => .error e st2
          | .ok bv =>
            match bv with
            | .int n =>
              match heapGet st2.heap cptr with
              | .error e => .error e st2
              | .ok (Value.list lst) =>
                if usizeOfI64 n < lst.length then
                  .next (pc + 1)
                    { st2 with heap :=
                        st2.heap.set cptr (some (.list (lst.set (usizeOfI64 n) aptr))) }
                else .error (.indexOutOfRange (.list lst) (usizeOfI64 n)) st2
              | .ok cv => .error (.incompatibleOperands .indexStore cv bv) st2
            | _ =>
              -- the error arm itself dereferences `cptr` first
              match heapGet st2.heap cptr with
              | .error e => .error e st2
              | .ok cv => .error (.incompatibleOperands .indexStore cv bv) st2

/-- Result of `VM::run`: on `error` the state mutated so far is kept (the
Rust VM remains usable after an error); `timeout` is the fuel bound of
the model, not a behaviour of the program. -/
inductive RunRes where
  | timeout
  | abort
  | error (e : Error) (st : VMSt)
  | ok (st : VMSt)

/-- `VM::run`: the dispatch loop, with fuel bounding the number of loop
iterations (backward jumps can make the Rust loop run forever).  The
loop exits, successfully, as soon as `pc` reaches the code length. -/
def run (fuel : Nat) (code : List Op) (pc : Nat) (st : VMSt) : RunRes :=
  if h : pc < code.length then
    match fuel with
    | 0 => .timeout
    | f + 1 =>
      match step code[pc] pc st with
      | .abort => .abort
      | .error e st1 => .error e st1
      | .next pc1 st1 => run f code pc1 st1
  else .ok st

/-- The compiler state (`compiler.rs`, struct `Compiler`).  The
`native_calls` table is initialised once and never mutated, so it is
modelled as the constant function `nativeCalls` below. -/
structure Compiler where
  code : List Op
  targetCount : Nat

/-- The built-in table of `Compiler::new`: native tag and minimum number
of arguments. -/
def nativeCalls : String → Option (Native × Nat)
  | "print" => some (.print, 0)
  | "length" => some (.length, 1)
  | "to_string" => some (.toStr, 1)
  | "append" => some (.append, 2)
  | "dump_stack" => some (.dumpStack, 0)
  | _ => none

/-- `Compiler::next_target`. -/
def nextTarget (c : Compiler) : Nat × Compiler :=
  (c.targetCount, { c with targetCount := c.targetCount + 1 })

/-- `Compiler::op_from_tk`: `none` models the panic on a non-operator
token. -/
def opFromTk (tk : Token) : Option Op :=
  match tk.kind with
  | .add => some .add
  | .sub => some .sub
  | .mul => some .mul
  | .div => some .div
  | .mod => some .mod
  | .lt => some .lt
  | .lte => some .lte
  | .gt => some .gt
  | .gte => some .gte
  | .eq => some .eq
  | .notEq => some .neq
  | _ => none

/-- `self.code.push(op)` (the code vector is modelled front-first, since
it is indexed by the program counter). -/
def emit (c : Compiler) (op : Op) : Compiler := { c with code := c.code ++ [op] }

mutual

/-- The body of `Compiler::feed` (the public `feed` below adds the
opcode-count return value).  `abort` models the two panics of the
source: a non-operator binary token and a non-built-in call. -/
def feedCore (c : Compiler) : Ast → RRes Compiler
  | .sttm inner =>
    match feedCore c inner with
    | .abort => .abort
    | .error e => .error e
    | .ok c1 => .ok (emit c1 .pop)
  | .int n _ => .ok (emit c (.pushI n))
  | .str s _ => .ok (emit c (.pushS s))
  | .lst elems _ =>
    match feedMany c elems with
    | .abort => .abort
    | .error e => .error e
    | .ok c1 => .ok (emit c1 (.makeList elems.length))
  | .var s _ => .ok (emit c (.loadG s))
  | .binOp tk lhs rhs =>
    if tk.kind = .assign then
      match lhs with
      | .var name _ =>
        match feedCore c rhs with
        | .abort => .abort
        | .error e => .error e
        | .ok c1 => .ok (emit c1 (.storeG name))
      | .index _ target idx =>
        match feedCore c rhs with
        | .abort => .abort
        | .error e => .error e
        | .ok c1 =>
          match feedCore c1 idx with
          | .abort => .abort
          | .error e => .error e
          | .ok c2 =>
            match feedCore c2 target with
            | .abort => .abort
            | .error e => .error e
            | .ok c3 => .ok (emit c3 .indexStore)
      | other => .error (.invalidAssignmentTarget other)
    else
      match feedCore c lhs with
      | .abort => .abort
      | .error e => .error e
      | .ok c1 =>
        match feedCore c1 rhs with
        | .abort => .abort
        | .error e => .error e
        | .ok c2 =>
          match opFromTk tk with
          | none => .abort
          | some op => .ok (emit c2 op)
  | .loop _tk stO cmpO body upO =>
    match feedOpt c stO with
    | .abort => .abort
    | .error e => .error e
    | .ok c0 =>
      let (loopStart, c1) := nextTarget c0
      let (loopEnd, c2) := nextTarget c1
      match feedLoopCond (emit c2 (.target loopStart)) loopEnd cmpO with
      | .abort => .abort
      | .error e => .error e
      | .ok c3 =>
        match feedCore c3 body with
        | .abort => .abort
        | .error e => .error e
        | .ok c4 =>
          match feedOpt c4 upO with
          | .abort => .abort
          | .error e => .error e
          | .ok c5 => .ok (emit (emit c5 (.jmp loopStart)) (.target loopEnd))
  | .ifElse _tk cond ifTrue ifFalse =>
    let (targetEnd, c1) := nextTarget c
    let (targetFalse, c2) :=
      match ifFalse with
      | some _ => nextTarget c1
      | none => (targetEnd, c1)
    match feedCore c2 cond with
    | .abort => .abort
    | .error e => .error e
    | .ok c3 =>
      match feedCore (emit c3 (.jmpF targetFalse)) ifTrue with
      | .abort => .abort
      | .error e => .error e
      | .ok c4 =>
        match feedElse c4 targetEnd targetFalse ifFalse with
        | .abort => .abort
        | .error e => .error e
        | .ok c5 => .ok (emit c5 (.target targetEnd))
  | .block _ asts => feedMany c asts
  | .index _ lhs rhs =>
    match feedCore c lhs with
    | .abort => .abort
    | .error e => .error e
    | .ok c1 =>
      match feedCore c1 rhs with
      | .abort => .abort
      | .error e => .error e
      | .ok c2 => .ok (emit c2 .index)
  | .call tk callee args =>
    match callee with
    | .var name vtk =>
      match nativeCalls name with
      | some native =>
        if args.length < native.2 then
          .error (.notEnoughArguments (.call tk (.var name vtk) args) name args.length native.2)
        else
          match feedMany c args with
          | .abort => .abort
          | .error e => .error e
          | .ok c1 => .ok (emit c1 (.native args.length native.1))
      | none => .abort
    | _ => .abort

/-- The element loops of `Ast::Lst`, `Ast::Block` and call arguments. -/
def feedMany (c : Compiler) : List Ast → RRes Compiler
  | [] => .ok c
  | a :: rest =>
    match feedCore c a with
    | .abort => .abort
    | .error e => .error e
    | .ok c1 => feedMany c1 rest

/-- `if let Some(ast) = ... { self.feed(ast)?; }`. -/
def feedOpt (c : Compiler) : Option Ast → RRes Compiler
  | none => .ok c
  | some a => feedCore c a

/-- The loop condition: feed it and emit `JmpF(loop_end)`, if present. -/
def feedLoopCond (c : Compiler) (loopEnd : Nat) : Option Ast → RRes Compiler
  | none => .ok c
  | some a =>
    match feedCore c a with
    | .abort => .abort
    | .error e => .error e
    | .ok c1 => .ok (emit c1 (.jmpF loopEnd))

/-- The else branch: emit `Jmp(target_end); Target(target_false)` and
feed the branch, if present. -/
def feedElse (c : Compiler) (targetEnd targetFalse : Nat) : Option Ast → RRes Compiler
  | none => .ok c
  | some fAst => feedCore (emit (emit c (.jmp targetEnd)) (.target targetFalse)) fAst

end

/-- `Compiler::feed`: `feedCore` plus the number of opcodes appended. -/
def feed (c : Compiler) (ast : Ast) : RRes (Compiler × Nat) :=
  match feedCore c ast with
  | .abort => .abort
  | .error e => .error e
  | .ok c1 => .ok (c1, c1.code.length - c.code.length)

/-- `Compiler::optimize` as a left-to-right scan: each `StoreG`
immediately followed by `Pop` becomes a single `MoveG`, and the scan
continues after the removed `Pop` — the recursion is the functional
reading of the index-based in-place loop of the source. -/
def optimize : List Op → List Op
  | .storeG name :: .pop :: rest => .moveG name :: optimize rest
  | op :: rest => op :: optimize rest
  | [] => []

/-- The `usize::MAX` sentinel marking a target id as not yet recorded. -/
def usizeMax : Nat := 2 ^ 64 - 1

/-- First pass of `Compiler::expand_targets`: record for each target id
the address it will have once the `Target` markers are removed (`i`
counts the non-`Target` opcodes seen so far); indexing the table out of
range panics (`none`). -/
def recordTargets : List Op → Nat → List Nat → Option (List Nat)
  | [], _, tgt => some tgt
  | .target id :: rest, i, tgt =>
    if id < tgt.length then recordTargets rest i (tgt.set id i) else none
  | _ :: rest, i, tgt => recordTargets rest (i + 1) tgt

/-- The check between the passes of `Compiler::expand_targets`: every
jump's target id must have been recorded (not still `usize::MAX`). -/
def checkJumps (tgt : List Nat) : List Op → RRes Unit
  | [] => .ok ()
  | .jmp id :: rest =>
    match tgt[id]? with
    | none => .abort
    | some a => if a = usizeMax then .error (.jumpTargetNotFound id) else checkJumps tgt rest
  | .jmpF id :: rest =>
    match tgt[id]? with
    | none => .abort
    | some a => if a = usizeMax then .error (.jumpTargetNotFound id) else checkJumps tgt rest
  | _ :: rest => checkJumps tgt rest

/-- `Op::Target(_)`. -/
def isTarget : Op → Bool
  | .target _ => true
  | _ => false

/-- One opcode of the third pass of `Compiler::expand_targets`: rewrite
a jump to the recorded address (`*id = target[*id]`, panicking — `none`
— when the id is out of range of the table). -/
def mapJumpOp (tgt : List Nat) : Op → Option Op
  | .jmp id => (tgt[id]?).map .jmp
  | .jmpF id => (tgt[id]?).map .jmpF
  | op => some op

/-- Third pass of `Compiler::expand_targets`: rewrite every jump. -/
def mapJumps (tgt : List Nat) : List Op → Option (List Op)
  | [] => some []
  | op :: rest =>
    match mapJumpOp tgt op with
    | none => none
    | some op1 =>
      match mapJumps tgt rest with
      | none => none
      | some rest1 => some (op1 :: rest1)

/-- `Compiler::expand_targets`: record targets, check the jumps, remove
the `Target` markers, rewrite the jumps to absolute addresses. -/
def expandTargets (c : Compiler) : RRes (List Op) :=
  match recordTargets c.code 0 (List.replicate c.targetCount usizeMax) with
  | none => .abort
  | some tgt =>
    match checkJumps tgt c.code with
    | .abort => .abort
    | .error e => .error e
    | .ok _ =>
      match mapJumps tgt (c.code.filter (fun op => !isTarget op)) with
      | none => .abort
      | some code1 => .ok code1

/-- `Compiler::build`: optimize, then expand the jump targets. -/
def build (c : Compiler) : RRes (List Op) :=
  expandTargets { c with code := optimize c.code }

/-- Feed a sequence of top-level ASTs to a compiler, in order. -/
def feedAll (c : Compiler) : List Ast → RRes Compiler
  | [] => .ok c
  | a :: rest =>
    match feed c a with
    | .abort => .abort
    | .error e => .error e
    | .ok (c1, _) => feedAll c1 rest

/-- The whole compilation pipeline the claims quantify over: a fresh
compiler (`Compiler::new`) fed each top-level AST, then `build()`. -/
def buildProgram (asts : List Ast) : RRes (List Op) :=
  match feedAll { code := [], targetCount := 0 } asts with
  | .abort => .abort
  | .error e => .error e
  | .ok c => build c

/-! Predicates used to state the claims, and the concrete programs and
states their witnesses and counterexamples run on. -/

/-- The pairs of values `Value::cmp` has a comparison arm for; every
other pair falls into its incompatible-operands arm. -/
def cmpCompatible : Value → Value → Bool
  | .int _, .int _ => true
  | .str _, .str _ => true
  | .list _, .list _ => true
  | _, _ => false

/-- Every pointer stored in a heap list value is within heap bounds. -/
def heapPtrsInRange (heap : Heap) : Prop :=
  ∀ (i : Nat) (l : List HeapPtr), heap[i]? = some (some (Value.list l)) →
    ∀ p ∈ l, p < heap.length

/-- Every pointer stored in a heap list value dereferences to a value
(the list invariant of the spec: contained pointers reference
currently-allocated slots). -/
def heapPtrsLive (heap : Heap) : Prop :=
  ∀ (i : Nat) (l : List HeapPtr), heap[i]? = some (some (Value.list l)) →
    ∀ p ∈ l, ∃ v, heapGet heap p = .ok v

/-- The opcodes whose dispatch reads or writes the program counter:
jumps overwrite `next_pc`, and a `Target` reports its own address. -/
def isJumpOrTarget : Op → Bool
  | .jmp _ | .jmpF _ | .target _ => true
  | _ => false

/-- Straight-line execution: run the opcodes in list order.  On code
without jump or target opcodes `VM::run` agrees with this (the bridge
lemma below), which is what makes the peephole rewrite locally
checkable. -/
def seqRun : List Op → VMSt → RunRes
  | [], st => .ok st
  | op :: rest, st =>
    match step op 0 st with
    | .abort => .abort
    | .error e st1 => .error e st1
    | .next _ st1 => seqRun rest st1

/-- A VM state with nothing in it. -/
def stEmpty : VMSt := { heap := [], stack := [], top := [], freeList := [], output := [] }

/-- State for the C1 counterexample: two arguments of an `append` call
on the stack — argument 0 a pointer to an empty list, argument 1 (the
last argument) a pointer to the integer 5 — plus one free slot. -/
def appendCexSt : VMSt :=
  { heap := [some (.list []), some (.int 5), none], stack := [1, 0], top := [],
    freeList := [2], output := [] }

/-- What executing `append` actually leaves behind on `appendCexSt`: the
pointer to 5 was appended to the list of argument 0, both arguments were
popped, and the new length 1 was boxed into the free slot and pushed. -/
def appendCexSt1 : VMSt :=
  { heap := [some (.list [1]), some (.int 5), some (.int 1)], stack := [2], top := [],
    freeList := [], output := [] }

/-- State for the C1 witness: `append(xs, 40, 41)` about to execute, with
`xs` a two-element list. -/
def appendWitSt : VMSt :=
  { heap := [some (.list [1, 2]), some (.int 10), some (.int 11), some (.int 40),
             some (.int 41), none],
    stack := [4, 3, 0], top := [("xs", 0)], freeList := [5], output := [] }

/-- State for the C1 error-branch witness: `append(7, ys)` about to
execute, whose FIRST argument holds the integer 7, not a list. -/
def appendErrWitSt : VMSt :=
  { heap := [some (.int 7), some (.list [])], stack := [1, 0], top := [],
    freeList := [], output := [] }

/-- The `while 0 { }` AST of the C2 counterexample (token payloads as the
lexer would produce them). -/
def cexLoopAst : Ast :=
  .loop { kind := .kWhile, value := "while", span := (0, 5) } none
    (some (.int 0 { kind := .int, value := "0", span := (6, 7) }))
    (.block { kind := .lbraces, value := "\x7b", span := (8, 9) } []) none

/-- The code the C2 counterexample compiles to. -/
def cexLoopCode : List Op := [.pushI 0, .jmpF 3, .jmp 0]

/-- The program of the C3 counterexample: a jump over a `StoreG`/`Pop`
pair, landing on the `Pop`. -/
def cexPeepCode : List Op := [.jmp 2, .storeG "x", .pop]

/-- Straight-line program for the C3 witness. -/
def witPeepCode : List Op := [.pushI 7, .storeG "x", .pop]

/-- State for the C3 witness: one free slot so the push allocates
without a collection. -/
def witPeepSt : VMSt :=
  { heap := [none], stack := [], top := [], freeList := [0], output := [] }

/-- The one-slot heap whose slot holds the list pointing back at itself
(buildable through `IndexStore`), and that self-referential list value:
the C4 counterexample. -/
def cycHeap : Heap := [some (.list [0])]

/-- The self-referential list value living in `cycHeap`. -/
def cycVal : Value := .list [0]

/-- State for the C5 counterexample: the single stack entry points to an
allocated slot (the original claim's hypothesis holds), but the list in
that slot contains the out-of-range pointer 5, on which the mark loop's
`marked[ptr.0]` indexing panics. -/
def gcCexSt : VMSt :=
  { heap := [some (.list [5])], stack := [0], top := [], freeList := [], output := [] }

/-- State for the C5 witness: one reachable slot, one garbage slot. -/
def gcWitSt : VMSt :=
  { heap := [some (.int 1), some (.int 2)], stack := [0], top := [], freeList := [],
    output := [] }

/-- Heap of the C6 counterexample: slot 0 holds a list whose single
pointer refers to the freed slot 1. -/
def danglingHeap : Heap := [some (.list [1]), none]

/-- Heap of the C6 witness: a list of one integer. -/
def fmtWitHeap : Heap := [some (.list [1]), some (.int 9)]

/-- State for the C8 witness: 7 / 0 about to execute. -/
def divWitSt : VMSt :=
  { heap := [some (.int 7), some (.int 0)], stack := [1, 0], top := [], freeList := [],
    output := [] }

/-- State for the C10 witness: comparing the integer 1 with the string
"a". -/
def cmpWitSt : VMSt :=
  { heap := [some (.int 1), some (.str "a"), none], stack := [1, 0], top := [],
    freeList := [2], output := [] }

/-! ## Supporting lemmas -/

/-- `collect` touches only the heap and the free list. -/
theorem collect_skeleton (st st' : VMSt) (h : collect st = some st') :
    st'.stack = st.stack ∧ st'.top = st.top ∧ st'.output = st.output ∧
    st'.heap.length = st.heap.length := by
  unfold collect at h
  cases hml : markLoop st.heap (List.replicate st.heap.length false)
      ((st.stack.reverse ++ topValues st.top).reverse) with
  | none =>
    simp only [hml] at h
    exact Option.noConfusion h
  | some m =>
    simp only [hml, Option.some.injEq] at h
    subst h
    refine ⟨rfl, rfl, rfl, ?_⟩
    simp

/-- `find_free_slot` touches only the heap and the free list. -/
theorem findFreeSlot_skeleton (st : VMSt) (i : Nat) (st1 : VMSt)
    (h : findFreeSlot st = some (i, st1)) :
    st1.stack = st.stack ∧ st1.top = st.top ∧ st1.output = st.output := by
  unfold findFreeSlot at h
  cases hf : st.freeList with
  | cons j rest =>
    simp only [hf, Option.some.injEq, Prod.mk.injEq] at h
    obtain ⟨-, h2⟩ := h
    subst h2
    exact ⟨rfl, rfl, rfl⟩
  | nil =>
    simp only [hf] at h
    cases hc : collect st with
    | none =>
      simp only [hc] at h
      exact Option.noConfusion h
    | some st2 =>
      simp only [hc] at h
      obtain ⟨hs2, ht2, ho2, -⟩ := collect_skeleton st st2 hc
      cases hf2 : st2.freeList with
      | cons j rest =>
        simp only [hf2, Option.some.injEq, Prod.mk.injEq] at h
        obtain ⟨-, h2⟩ := h
        subst h2
        exact ⟨hs2, ht2, ho2⟩
      | nil =>
        simp only [hf2, Option.some.injEq, Prod.mk.injEq] at h
        obtain ⟨-, h2⟩ := h
        subst h2
        exact ⟨hs2, ht2, ho2⟩

/-- Unfolding `run` below the fuel bound. -/
theorem run_succ (f : Nat) (code : List Op) (pc : Nat) (st : VMSt)
    (h : pc < code.length) :
    run (f + 1) code pc st =
      match step code[pc] pc st with
      | .abort => .abort
      | .error e st1 => .error e st1
      | .next pc1 st1 => run f code pc1 st1 := by
  rw [run.eq_def]
  simp [h]

/-- `run` exits successfully once the program counter leaves the code. -/
theorem run_done (f : Nat) (code : List Op) (pc : Nat) (st : VMSt)
    (h : ¬ pc < code.length) :
    run f code pc st = .ok st := by
  rw [run.eq_def]
  simp [h]

/-- Every pair without a comparison arm takes the incompatible-operands
arm of `Value::cmp`, which names `Op::Lt` whatever opcode invoked it. -/
theorem cmpF_incompatible (f : Nat) (heap : Heap) (a b : Value)
    (h : cmpCompatible a b = false) :
    cmpF (f + 1) heap a b = some (.error (.incompatibleOperands .lt a b)) := by
  cases a <;> cases b <;> simp_all [cmpCompatible, cmpF]

/-! ## C7: string comparison is lexicographic over code points -/

/-- C7: `cmp` on two strings returns -1, 0, or 1 exactly as their
code-point sequences compare lexicographically: `String.data` is the
string's list of characters (Unicode scalar values) and
`List.Lex (· < ·)` strict lexicographic order on such lists.  (Rust
compares `String`s by UTF-8 bytes, which coincides with code-point
order; the model uses the code-point order directly.) -/
theorem cmp_str_lexicographic (fuel : Nat) (heap : Heap) (a b : String) :
    (cmpF (fuel + 1) heap (.str a) (.str b) = some (.ok (-1)) ↔
      List.Lex (· < ·) a.data b.data) ∧
    (cmpF (fuel + 1) heap (.str a) (.str b) = some (.ok 1) ↔
      List.Lex (· < ·) b.data a.data) ∧
    (cmpF (fuel + 1) heap (.str a) (.str b) = some (.ok 0) ↔ a = b) := by
  have hlt : ∀ x y : String, x < y ↔ List.Lex (· < ·) x.data y.data := by
    intro x y
    exact String.lt_iff_toList_lt
  have hstep : cmpF (fuel + 1) heap (.str a) (.str b) =
      some (.ok (if a < b then (-1 : Int) else if a > b then 1 else 0)) := by
    simp [cmpF]
  rw [hstep, ← hlt a b, ← hlt b a]
  rcases lt_trichotomy a b with h | h | h
  · simp [h, lt_asymm h, h.ne]
  · subst h
    simp [lt_irrefl]
  · simp [h, lt_asymm h, gt_iff_lt, h.ne']

/-! ## C8: division and modulo by zero are fatal -/

/-- C8: executing `Div` or `Mod` on integer operands with right operand 0
is a fatal arithmetic fault: the VM panics (models as `abort`), pushing
no result and returning no error value from the VM's error taxonomy. -/
theorem div_mod_by_zero_fatal (st : VMSt) (pb pa : HeapPtr) (rest : List HeapPtr)
    (a : Int) (f : Nat)
    (hs : st.stack = pb :: pa :: rest)
    (hb : heapGet st.heap pb = .ok (.int 0))
    (ha : heapGet st.heap pa = .ok (.int a)) :
    run (f + 1) [Op.div] 0 st = .abort ∧ run (f + 1) [Op.mod] 0 st = .abort ∧
    (∀ e st1, run (f + 1) [Op.div] 0 st ≠ .error e st1) ∧
    (∀ e st1, run (f + 1) [Op.mod] 0 st ≠ .error e st1) := by
  have hdiv : run (f + 1) [Op.div] 0 st = .abort := by
    rw [run_succ _ _ _ _ (by simp)]
    simp only [List.getElem_cons_zero, step, binStep, hs, hb, ha, Value.div]
    simp
  have hmod : run (f + 1) [Op.mod] 0 st = .abort := by
    rw [run_succ _ _ _ _ (by simp)]
    simp only [List.getElem_cons_zero, step, binStep, hs, hb, ha, Value.mod]
    simp
  refine ⟨hdiv, hmod, ?_, ?_⟩
  · intro e st1 hcon
    rw [hdiv] at hcon
    exact RunRes.noConfusion hcon
  · intro e st1 hcon
    rw [hmod] at hcon
    exact RunRes.noConfusion hcon

/-- C8 witness: `7 / 0` panics on a concrete state. -/
theorem div_mod_by_zero_fatal_witness :
    divWitSt.stack = 1 :: 0 :: [] ∧
    heapGet divWitSt.heap 1 = .ok (.int 0) ∧
    heapGet divWitSt.heap 0 = .ok (.int 7) ∧
    run 1 [Op.div] 0 divWitSt = .abort :=
  ⟨rfl, rfl, rfl, (div_mod_by_zero_fatal divWitSt 1 0 [] 7 0 rfl rfl rfl).1⟩

/-! ## C9: MakeList on an under-full stack panics -/

/-- C9: executing `MakeList(n)` on a stack holding fewer than `n`
pointers does not surface the `StackUnderflow` error other
stack-consuming opcodes return; the index underflow in `split_off`
panics (`abort`) instead. -/
theorem makeList_underflow_panics (st : VMSt) (n f : Nat) (h : st.stack.length < n) :
    run (f + 1) [Op.makeList n] 0 st = .abort ∧
    (∀ st1, run (f + 1) [Op.makeList n] 0 st ≠ .error .stackUnderflow st1) := by
  have hstep : step (Op.makeList n) 0 st = .abort := by
    unfold step
    cases hf : findFreeSlot st with
    | none => simp
    | some p =>
      obtain ⟨i, st1⟩ := p
      obtain ⟨hs1, -, -⟩ := findFreeSlot_skeleton st i st1 hf
      simp only [hf]
      rw [if_neg (by rw [hs1]; omega)]
  have h1 : run (f + 1) [Op.makeList n] 0 st = .abort := by
    rw [run_succ _ _ _ _ (by simp)]
    simp only [List.getElem_cons_zero, hstep]
  refine ⟨h1, ?_⟩
  intro st1 hcon
  rw [h1] at hcon
  exact RunRes.noConfusion hcon

/-- C9 witness: `MakeList(1)` on the empty stack panics. -/
theorem makeList_underflow_panics_witness :
    stEmpty.stack.length < 1 ∧ run 1 [Op.makeList 1] 0 stEmpty = .abort :=
  ⟨by decide, (makeList_underflow_panics stEmpty 1 0 (by decide)).1⟩

/-! ## C10: incompatible comparisons always blame `Lt` -/

/-- C10: on operands without a comparison arm (such as an integer and a
string) every comparison opcode — `Lt`, `Lte`, `Gt`, `Gte`, `Eq`,
`Neq` — fails with an incompatible-operands error that names opcode
`Lt`, whatever opcode was actually executed. -/
theorem comparison_error_names_lt (st : VMSt) (pb pa : HeapPtr) (rest : List HeapPtr)
    (a b : Value) (f : Nat)
    (hs : st.stack = pb :: pa :: rest)
    (hb : heapGet st.heap pb = .ok b)
    (ha : heapGet st.heap pa = .ok a)
    (hc : cmpCompatible a b = false) :
    ∀ op ∈ ([Op.lt, Op.lte, Op.gt, Op.gte, Op.eq, Op.neq] : List Op),
      run (f + 1) [op] 0 st =
        .error (.incompatibleOperands .lt a b) { st with stack := rest } := by
  have key : ∀ rel, cmpOpStep st 0 rel =
      .error (.incompatibleOperands .lt a b) { st with stack := rest } := by
    intro rel
    simp only [cmpOpStep, binStep, hs, hb, ha, cmpVM]
    rw [cmpF_incompatible _ _ a b hc]
  intro op hop
  fin_cases hop <;>
    · rw [run_succ _ _ _ _ (by simp)]
      simp only [List.getElem_cons_zero, step, key]

/-- C10 witness: `Gte` on the integer 1 and the string "a" errors naming
`Lt`. -/
theorem comparison_error_names_lt_witness :
    cmpWitSt.stack = 1 :: 0 :: [] ∧
    heapGet cmpWitSt.heap 1 = .ok (.str "a") ∧
    heapGet cmpWitSt.heap 0 = .ok (.int 1) ∧
    cmpCompatible (.int 1) (.str "a") = false ∧
    run 1 [Op.gte] 0 cmpWitSt =
      .error (.incompatibleOperands .lt (.int 1) (.str "a"))
        { cmpWitSt with stack := [] } :=
  ⟨rfl, rfl, rfl, rfl,
    comparison_error_names_lt cmpWitSt 1 0 [] (.int 1) (.str "a") 0 rfl rfl rfl rfl
      Op.gte (by decide)⟩

/-! ## C4: cmp is reflexive-zero and antisymmetric where it returns -/

/-- On the self-referential list, `cmp(v, v)` runs out of any recursion
depth: the Rust recursion never bottoms out. -/
theorem cmpF_cyclic_none : ∀ fuel, cmpF fuel cycHeap cycVal cycVal = none := by
  intro fuel
  induction fuel with
  | zero => simp [cmpF]
  | succ f ih =>
    simp only [cycHeap, cycVal] at ih
    simp [cmpF, cmpList, cycHeap, cycVal, heapGet, ih]

/-- C4 counterexample: for the cyclic value `v` (one-slot heap whose
list points back at itself, constructible via `IndexStore`), `cmp(v, v)`
never returns 0: the recursion diverges at every depth, so the claimed
`cmp(v, v) == 0` fails on this readable heap value. -/
theorem cmp_refl_cyclic_counterexample :
    ¬ ∃ fuel, cmpF fuel cycHeap cycVal cycVal = some (.ok 0) := by
  rintro ⟨fuel, hf⟩
  rw [cmpF_cyclic_none fuel] at hf
  exact Option.noConfusion hf

/-- Antisymmetry of `cmp` at every recursion depth, proved together with
the corresponding statement for its list-element loop. -/
theorem cmp_antisym_aux (heap : Heap) :
    ∀ fuel : Nat,
      (∀ a b c, cmpF fuel heap a b = some (.ok c) →
        cmpF fuel heap b a = some (.ok (-c))) ∧
      (∀ as bs c, cmpList fuel heap as bs = some (.ok c) →
        cmpList fuel heap bs as = some (.ok (-c))) := by
  have hlistBase : ∀ (f : Nat)
      (hF : ∀ a b c, cmpF f heap a b = some (.ok c) → cmpF f heap b a = some (.ok (-c)))
      (hRec : ∀ ps qs c, cmpList f heap ps qs = some (.ok c) →
        cmpList f heap qs ps = some (.ok (-c))),
      True := fun _ _ _ => trivial
  intro fuel
  induction fuel with
  | zero =>
    constructor
    · intro a b c h
      simp [cmpF] at h
    · intro as bs c h
      cases as with
      | nil =>
        cases bs with
        | nil => simp [cmpList] at h ⊢; omega
        | cons q qs => simp [cmpList] at h ⊢; omega
      | cons p ps =>
        cases bs with
        | nil => simp [cmpList] at h ⊢; omega
        | cons q qs =>
          cases hgp : heapGet heap p with
          | error ep => simp [cmpList, hgp] at h
          | ok av =>
            cases hgq : heapGet heap q with
            | error eq1 => simp [cmpList, hgp, hgq] at h
            | ok bv => simp [cmpList, cmpF, hgp, hgq] at h
  | succ f ih =>
    obtain ⟨ihF, ihL⟩ := ih
    have hF : ∀ a b c, cmpF (f + 1) heap a b = some (.ok c) →
        cmpF (f + 1) heap b a = some (.ok (-c)) := by
      intro a b c h
      cases a with
      | int n =>
        cases b with
        | int m =>
          rcases lt_trichotomy n m with hnm | hnm | hnm
          · simp [cmpF, hnm, lt_asymm hnm, hnm.ne, hnm.ne'] at h ⊢; omega
          · subst hnm
            simp [cmpF, lt_irrefl] at h ⊢; omega
          · simp [cmpF, hnm, lt_asymm hnm, hnm.ne, hnm.ne'] at h ⊢; omega
        | str s => simp [cmpF] at h
        | list bs => simp [cmpF] at h
      | str s =>
        cases b with
        | int m => simp [cmpF] at h
        | str t =>
          rcases lt_trichotomy s t with hst | hst | hst
          · simp [cmpF, hst, lt_asymm hst, hst.ne, hst.ne'] at h ⊢; omega
          · subst hst
            simp [cmpF, lt_irrefl] at h ⊢; omega
          · simp [cmpF, hst, lt_asymm hst, hst.ne, hst.ne'] at h ⊢; omega
        | list bs => simp [cmpF] at h
      | list as =>
        cases b with
        | int m => simp [cmpF] at h
        | str t => simp [cmpF] at h
        | list bs =>
          simp only [cmpF] at h ⊢
          exact ihL as bs c h
    refine ⟨hF, ?_⟩
    intro as bs c h
    induction as generalizing bs c with
    | nil =>
      cases bs with
      | nil => simp [cmpList] at h ⊢; omega
      | cons q qs => simp [cmpList] at h ⊢; omega
    | cons p ps ihas =>
      cases bs with
      | nil => simp [cmpList] at h ⊢; omega
      | cons q qs =>
        cases hgp : heapGet heap p with
        | error ep => simp [cmpList, hgp] at h
        | ok av =>
          cases hgq : heapGet heap q with
          | error eq1 => simp [cmpList, hgp, hgq] at h
          | ok bv =>
            cases hcf : cmpF (f + 1) heap av bv with
            | none => simp [cmpList, hgp, hgq, hcf] at h
            | some r =>
              cases r with
              | error er => simp [cmpList, hgp, hgq, hcf] at h
              | ok c1 =>
                have hswap : cmpF (f + 1) heap bv av = some (.ok (-c1)) :=
                  hF av bv c1 hcf
                by_cases hc0 : c1 = 0
                · subst hc0
                  simp only [neg_zero] at hswap
                  simp [cmpList, hgp, hgq, hcf] at h
                  simp [cmpList, hgp, hgq, hswap]
                  exact ihas qs c h
                · have hc : c = c1 := by
                    simp [cmpList, hgp, hgq, hcf, hc0] at h
                    omega
                  subst hc
                  simp [cmpList, hgp, hgq, hswap, hc0, neg_eq_zero]

/-- C4 (amended): wherever `cmp` returns a comparison result, it is
reflexive-zero and antisymmetric: a returned `cmp(v, v)` is 0 (on
cyclic values it never returns, see the counterexample), and if
`cmp(a, b)` returns `c` then `cmp(b, a)` returns `-c`, at the same
recursion depth. -/
theorem cmp_refl_and_antisym :
    (∀ fuel heap v c, cmpF fuel heap v v = some (.ok c) → c = 0) ∧
    (∀ fuel heap a b c, cmpF fuel heap a b = some (.ok c) →
      cmpF fuel heap b a = some (.ok (-c))) := by
  constructor
  · intro fuel heap v c h
    have h2 := (cmp_antisym_aux heap fuel).1 v v c h
    have h3 := h.symm.trans h2
    simp only [Option.some.injEq, Except.ok.injEq] at h3
    omega
  · intro fuel heap a b c h
    exact (cmp_antisym_aux heap fuel).1 a b c h

/-- C4 witness: `cmp(3, 3) = 0` and `cmp(3, 5) = -1` gives
`cmp(5, 3) = -(-1)`. -/
theorem cmp_refl_and_antisym_witness :
    ((0 : Int) = 0) ∧ cmpF 1 [] (.int 5) (.int 3) = some (.ok (-(-1))) :=
  ⟨cmp_refl_and_antisym.1 1 [] (.int 3) 0 (by simp [cmpF]),
   cmp_refl_and_antisym.2 1 [] (.int 3) (.int 5) (-1) (by simp [cmpF])⟩

/-! ## C6: to_string terminates; the depth cap renders "[...]" -/

/-- `VM::get` succeeds exactly on live in-range slots. -/
theorem heapGet_ok (heap : Heap) (p : HeapPtr) (v : Value) :
    heapGet heap p = .ok v ↔ heap[p]? = some (some v) := by
  unfold heapGet
  cases h : heap[p]? with
  | none => simp
  | some s =>
    cases s with
    | none => simp
    | some w => simp

/-- C6 counterexample: on the heap whose stored list holds a pointer to
the freed slot 1, `to_string` of that list terminates but returns the
empty-slot memory error — not a string. -/
theorem fmt_dangling_counterexample :
    fmt danglingHeap (.list [1]) 0 = .error (.invalidMemoryAccess 1) := by
  simp [fmt, fmtElems, heapGet, danglingHeap]

/-- On a heap whose list values only hold live pointers, `fmt` returns a
string for every value whose own pointers are live, at every depth; `m`
bounds the remaining recursion depth `4 - d`. -/
theorem fmt_ok_aux (heap : Heap) (hv : heapPtrsLive heap) :
    ∀ (m d : Nat) (v : Value), 4 - d ≤ m →
      (∀ l, v = .list l → ∀ p ∈ l, ∃ w, heapGet heap p = .ok w) →
      ∃ s, fmt heap v d = .ok s := by
  intro m
  induction m with
  | zero =>
    intro d v hm hvok
    cases v with
    | int n => exact ⟨toString n, by simp [fmt]⟩
    | str s => exact ⟨s, by simp [fmt]⟩
    | list l =>
      have hd : d > 3 := by omega
      exact ⟨"[...]", by simp [fmt, hd]⟩
  | succ m ihm =>
    intro d v hm hvok
    cases v with
    | int n => exact ⟨toString n, by simp [fmt]⟩
    | str s => exact ⟨s, by simp [fmt]⟩
    | list l =>
      by_cases hd : d > 3
      · exact ⟨"[...]", by simp [fmt, hd]⟩
      · have helems : ∀ (ps : List HeapPtr) (first : Bool),
            (∀ p ∈ ps, ∃ w, heapGet heap p = .ok w) →
            ∃ s, fmtElems heap (d + 1) ps first = .ok s := by
          intro ps
          induction ps with
          | nil => intro first _; exact ⟨"", by simp [fmtElems]⟩
          | cons p ps ihp =>
            intro first hps
            obtain ⟨w, hw⟩ := hps p (List.mem_cons_self p ps)
            have hwOk : ∀ l1, w = .list l1 → ∀ q ∈ l1, ∃ u, heapGet heap q = .ok u := by
              intro l1 hl q hq
              subst hl
              exact hv p l1 ((heapGet_ok heap p _).mp hw) q hq
            obtain ⟨sw, hsw⟩ := ihm (d + 1) w (by omega) hwOk
            obtain ⟨srest, hsrest⟩ := ihp false (fun q hq => hps q (List.mem_cons_of_mem _ hq))
            exact ⟨(if first then "" else ", ") ++ sw ++ srest,
              by simp [fmtElems, hw, hsw, hsrest]⟩
        obtain ⟨s, hs⟩ := helems l true (fun p hp => hvok l rfl p hp)
        exact ⟨"[" ++ s ++ "]", by simp [fmt, hd, hs]⟩

/-- C6 (amended): `to_string` — `Value::fmt` from depth 0 — always
terminates (`fmt` is a total function, its recursion bounded by the
depth cap, cyclic structures included); for every value stored in a
heap whose list values hold only live pointers it returns a string,
while a dangling pointer instead produces a memory error (see the
counterexample); and any list reached at depth greater than three
is rendered as the literal "[...]". -/
theorem fmt_total_and_depth_cap :
    (∀ (heap : Heap) (v : Value), heapPtrsLive heap →
      (∃ i : Nat, heap[i]? = some (some v)) → ∃ s, fmt heap v 0 = .ok s) ∧
    (∀ (heap : Heap) (l : List HeapPtr) (d : Nat), d > 3 →
      fmt heap (.list l) d = .ok "[...]") := by
  constructor
  · intro heap v hv hin
    obtain ⟨i, hi⟩ := hin
    apply fmt_ok_aux heap hv 4 0 v (by omega)
    intro l hl p hp
    subst hl
    exact hv i l hi p hp
  · intro heap l d hd
    simp [fmt, hd]

/-- C6 witness: on a one-list heap the formatter returns a string, and a
list at depth 4 renders as "[...]". -/
theorem fmt_total_and_depth_cap_witness :
    heapPtrsLive fmtWitHeap ∧
    (∃ i : Nat, fmtWitHeap[i]? = some (some (Value.list [1]))) ∧
    (∃ s, fmt fmtWitHeap (.list [1]) 0 = .ok s) ∧
    ((4 : Nat) > 3) ∧ fmt fmtWitHeap (.list [1]) 4 = .ok "[...]" := by
  have hlive : heapPtrsLive fmtWitHeap := by
    intro i l hi p hp
    match i with
    | 0 =>
      simp [fmtWitHeap] at hi
      subst hi
      simp at hp
      subst hp
      exact ⟨.int 9, rfl⟩
    | 1 => simp [fmtWitHeap] at hi
    | n + 2 => simp [fmtWitHeap] at hi
  refine ⟨hlive, ⟨0, rfl⟩, ?_, by omega, ?_⟩
  · exact fmt_total_and_depth_cap.1 fmtWitHeap (.list [1]) hlive ⟨0, rfl⟩
  · exact fmt_total_and_depth_cap.2 fmtWitHeap [1] 4 (by omega)

/-! ## C1: the append native -/

/-- `VM::dup` succeeds exactly on in-range depths, yielding the pointer
at that depth from the top. -/
theorem dup_ok (st : VMSt) (i : Nat) (p : HeapPtr) :
    dup st i = .ok p ↔ st.stack[i]? = some p := by
  unfold dup
  by_cases h : i < st.stack.length
  · rw [dif_pos h, List.getElem?_eq_getElem h]
    simp
  · rw [dif_neg h, List.getElem?_eq_none (by omega)]
    simp

/-- The append argument loop collects the top `d` stack pointers in
bottom-to-top order (= argument order). -/
theorem appendArgs_eval (st : VMSt) : ∀ d : Nat, d ≤ st.stack.length →
    appendArgs st d = .ok (st.stack.take d).reverse := by
  intro d
  induction d with
  | zero => intro _; simp [appendArgs]
  | succ n ihn =>
    intro h
    have hn : n < st.stack.length := by omega
    have hdup : dup st n = .ok st.stack[n] := by
      unfold dup
      rw [dif_pos hn]
    have htake : st.stack.take (n + 1) = st.stack.take n ++ [st.stack[n]] := by
      rw [List.take_succ, List.getElem?_eq_getElem hn]
      simp
    rw [appendArgs, hdup, ihn (by omega), htake, List.reverse_append]
    rfl

/-- Popping the `n` arguments of a native call removes exactly them. -/
theorem popN_append (n : Nat) : ∀ (front rest : List HeapPtr) (st : VMSt),
    front.length = n → st.stack = front ++ rest →
    popN n st = ({ st with stack := rest }, none) := by
  induction n with
  | zero =>
    intro front rest st hf hs
    cases front with
    | nil =>
      simp at hs
      rw [popN, ← hs]
    | cons x xs => simp at hf
  | succ n ihn =>
    intro front rest st hf hs
    cases front with
    | nil => simp at hf
    | cons x xs =>
      simp at hf
      rw [popN.eq_def]
      simp only [hs, List.cons_append]
      exact ihn xs rest _ hf rfl

/-- C1 counterexample: an `append` call whose last argument is the
integer 5 (not a list).  The claim predicts the append-to-non-list
error; the VM instead succeeds, appends the pointer to 5 onto the list
that is the FIRST argument, and pushes the new length 1. -/
theorem append_claim_counterexample :
    run 1 [Op.native 2 .append] 0 appendCexSt = .ok appendCexSt1 ∧
    (∀ e st1, run 1 [Op.native 2 .append] 0 appendCexSt ≠ .error e st1) := by
  have h : run 1 [Op.native 2 .append] 0 appendCexSt = .ok appendCexSt1 := by rfl
  exact ⟨h, fun e st1 hcon => RunRes.noConfusion (h.symm.trans hcon)⟩

/-- Success path of `Native::Append`: with the first argument a list and
a free slot available for the boxed result (so no collection
interleaves), the call pushes the last `k-1` argument pointers onto
that list and leaves the new length on the stack. -/
theorem append_ok_aux (st : VMSt) (p0 : HeapPtr) (toAppend base : List HeapPtr)
    (l : List HeapPtr) (i : Nat) (restFree : List Nat) (f : Nat)
    (_hk : 1 ≤ toAppend.length)
    (hstack : st.stack = toAppend.reverse ++ p0 :: base)
    (hp0 : heapGet st.heap p0 = .ok (.list l))
    (hfree : st.freeList = i :: restFree)
    (hslot : st.heap[i]? = some none) :
    run (f + 1) [Op.native (toAppend.length + 1) .append] 0 st =
      .ok { st with
        heap := (st.heap.set p0 (some (.list (l ++ toAppend)))).set i
          (some (.int (wrap64 (l.length + toAppend.length)))),
        stack := i :: base,
        freeList := restFree } := by
  have hlenst : st.stack.length = toAppend.length + 1 + base.length := by
    rw [hstack]; simp; omega
  have hk0take : st.stack.take toAppend.length = toAppend.reverse := by
    rw [hstack]
    rw [show toAppend.length = toAppend.reverse.length by simp]
    exact List.take_left _ _
  have hargs : appendArgs st toAppend.length = .ok toAppend := by
    rw [appendArgs_eval st toAppend.length (by omega), hk0take, List.reverse_reverse]
  have hdupT : dup st toAppend.length = .ok p0 := by
    rw [dup_ok, hstack]
    rw [List.getElem?_append_right (by simp)]
    simp
  have hi : i < st.heap.length := by
    by_contra hcon
    rw [List.getElem?_eq_none (by omega)] at hslot
    exact Option.noConfusion hslot
  have hnat : nativeEval st (toAppend.length + 1) .append =
      .ok (.int (wrap64 ((l ++ toAppend).length)))
        { st with heap := st.heap.set p0 (some (.list (l ++ toAppend))) } := by
    unfold nativeEval
    simp only [Nat.add_sub_cancel, hargs, hdupT, hp0]
  have hpop : popN (toAppend.length + 1)
      { st with heap := st.heap.set p0 (some (.list (l ++ toAppend))) } =
      ({ st with heap := st.heap.set p0 (some (.list (l ++ toAppend))), stack := base },
        none) := by
    apply popN_append (toAppend.length + 1) (toAppend.reverse ++ [p0]) base
    · simp
    · show st.stack = _
      rw [hstack]
      simp
  have hpush : pushValue
      { st with heap := st.heap.set p0 (some (.list (l ++ toAppend))), stack := base }
      (.int (wrap64 ((l ++ toAppend).length))) =
      some (i, { st with
        heap := (st.heap.set p0 (some (.list (l ++ toAppend)))).set i
          (some (.int (wrap64 ((l ++ toAppend).length)))),
        stack := i :: base,
        freeList := restFree }) := by
    unfold pushValue findFreeSlot storeHeap
    simp only [hfree]
    rw [if_pos (by simpa using hi)]
  rw [run_succ _ _ _ _ (by simp), List.getElem_cons_zero]
  rw [step, hnat]
  simp only [hpop, hpush]
  rw [run_done _ _ _ _ (by simp)]
  simp [List.length_append]

/-- Error path of `Native::Append`: when the first argument does not
hold a list, the call fails with `InvalidAppend` carrying that value,
before any allocation, leaving the state unchanged. -/
theorem append_err_aux (st : VMSt) (p0 : HeapPtr) (toAppend base : List HeapPtr)
    (v : Value) (f : Nat)
    (_hk : 1 ≤ toAppend.length)
    (hstack : st.stack = toAppend.reverse ++ p0 :: base)
    (hp0 : heapGet st.heap p0 = .ok v)
    (hnl : ∀ l : List HeapPtr, v ≠ .list l) :
    run (f + 1) [Op.native (toAppend.length + 1) .append] 0 st =
      .error (.invalidAppend v) st := by
  have hlenst : st.stack.length = toAppend.length + 1 + base.length := by
    rw [hstack]; simp; omega
  have hk0take : st.stack.take toAppend.length = toAppend.reverse := by
    rw [hstack]
    rw [show toAppend.length = toAppend.reverse.length by simp]
    exact List.take_left _ _
  have hargs : appendArgs st toAppend.length = .ok toAppend := by
    rw [appendArgs_eval st toAppend.length (by omega), hk0take, List.reverse_reverse]
  have hdupT : dup st toAppend.length = .ok p0 := by
    rw [dup_ok, hstack]
    rw [List.getElem?_append_right (by simp)]
    simp
  have hnat : nativeEval st (toAppend.length + 1) .append =
      .error (.invalidAppend v) st := by
    unfold nativeEval
    cases v with
    | list l => exact absurd rfl (hnl l)
    | int n => simp only [Nat.add_sub_cancel, hargs, hdupT, hp0]
    | str s => simp only [Nat.add_sub_cancel, hargs, hdupT, hp0]
  rw [run_succ _ _ _ _ (by simp), List.getElem_cons_zero]
  rw [step, hnat]

/-- C1 (amended): for a native `append(a0, ..., a_{k-1})` with `k ≥ 2`
executed by the VM, the argument checked and extended is the FIRST one,
`a0`, not the last as claimed.  If `a0` holds a list and the state's
free list supplies the result slot (so no collection interleaves), the
LAST `k-1` argument pointers `a1 .. a_{k-1}` are pushed, in order and
by pointer, onto that list and the pushed result is the new length; if
`a0` does not hold a list, execution fails with the append-to-non-list
error carrying `a0`'s value, with the state unchanged. -/
theorem append_native_semantics :
    (∀ (st : VMSt) (p0 : HeapPtr) (toAppend base l : List HeapPtr) (i : Nat)
        (restFree : List Nat) (f : Nat),
      1 ≤ toAppend.length →
      st.stack = toAppend.reverse ++ p0 :: base →
      heapGet st.heap p0 = .ok (.list l) →
      st.freeList = i :: restFree →
      st.heap[i]? = some none →
      run (f + 1) [Op.native (toAppend.length + 1) .append] 0 st =
        .ok { st with
          heap := (st.heap.set p0 (some (.list (l ++ toAppend)))).set i
            (some (.int (wrap64 (l.length + toAppend.length)))),
          stack := i :: base,
          freeList := restFree }) ∧
    (∀ (st : VMSt) (p0 : HeapPtr) (toAppend base : List HeapPtr) (v : Value) (f : Nat),
      1 ≤ toAppend.length →
      st.stack = toAppend.reverse ++ p0 :: base →
      heapGet st.heap p0 = .ok v →
      (∀ l : List HeapPtr, v ≠ .list l) →
      run (f + 1) [Op.native (toAppend.length + 1) .append] 0 st =
        .error (.invalidAppend v) st) :=
  ⟨fun st p0 toAppend base l i restFree f hk hstack hp0 hfree hslot =>
      append_ok_aux st p0 toAppend base l i restFree f hk hstack hp0 hfree hslot,
    fun st p0 toAppend base v f hk hstack hp0 hnl =>
      append_err_aux st p0 toAppend base v f hk hstack hp0 hnl⟩

/-- C1 witness: `append(xs, 40, 41)` with `xs = [p1, p2]` appends the
two argument pointers onto `xs` and pushes the new length 4, and
`append(7, ys)` fails with the append-to-non-list error carrying 7. -/
theorem append_native_semantics_witness :
    (1 ≤ ([3, 4] : List HeapPtr).length) ∧
    appendWitSt.stack = ([3, 4] : List HeapPtr).reverse ++ 0 :: [] ∧
    heapGet appendWitSt.heap 0 = .ok (.list [1, 2]) ∧
    appendWitSt.freeList = 5 :: [] ∧
    appendWitSt.heap[5]? = some none ∧
    run 1 [Op.native (([3, 4] : List HeapPtr).length + 1) .append] 0 appendWitSt =
      .ok { appendWitSt with
        heap := (appendWitSt.heap.set 0 (some (.list ([1, 2] ++ [3, 4])))).set 5
          (some (.int (wrap64 (([1, 2] : List HeapPtr).length +
            ([3, 4] : List HeapPtr).length)))),
        stack := 5 :: [],
        freeList := [] } ∧
    heapGet appendErrWitSt.heap 0 = .ok (.int 7) ∧
    run 1 [Op.native (([1] : List HeapPtr).length + 1) .append] 0 appendErrWitSt =
      .error (.invalidAppend (.int 7)) appendErrWitSt :=
  ⟨by decide, rfl, rfl, rfl, rfl,
    append_native_semantics.1 appendWitSt 0 [3, 4] [] [1, 2] 5 [] 0 (by decide)
      rfl rfl rfl rfl,
    rfl,
    append_native_semantics.2 appendErrWitSt 0 [1] [] (.int 7) 0 (by decide) rfl rfl
      (fun l h => Value.noConfusion h)⟩

/-! ## C3: the peephole rewrite -/

/-- `binStep` uses the program counter only to name the fall-through
successor. -/
theorem binStep_shift (st : VMSt) (pc : Nat) (g : VMSt → Value → Value → RRes Value) :
    binStep st pc g =
      match binStep st 0 g with
      | .abort => .abort
      | .error e st1 => .error e st1
      | .next _ st1 => .next (pc + 1) st1 := by
  cases hst : st.stack with
  | nil => simp [binStep, hst]
  | cons bptr rest1 =>
    cases rest1 with
    | nil => simp [binStep, hst]
    | cons aptr rest2 =>
      cases hb : heapGet st.heap bptr with
      | error e => simp [binStep, hst, hb]
      | ok b =>
        cases ha : heapGet st.heap aptr with
        | error e => simp [binStep, hst, hb, ha]
        | ok a =>
          cases hg : g { st with stack := rest2 } a b with
          | abort => simp [binStep, hst, hb, ha, hg]
          | error e => simp [binStep, hst, hb, ha, hg]
          | ok c =>
            cases hp : pushValue { st with stack := rest2 } c with
            | none => simp [binStep, hst, hb, ha, hg, hp]
            | some pr => simp [binStep, hst, hb, ha, hg, hp]

/-- Every opcode other than the jumps and `Target` ignores the program
counter except to fall through to `pc + 1`. -/
theorem step_shift (op : Op) (pc : Nat) (st : VMSt) (h : isJumpOrTarget op = false) :
    step op pc st =
      match step op 0 st with
      | .abort => .abort
      | .error e st1 => .error e st1
      | .next _ st1 => .next (pc + 1) st1 := by
  cases op <;>
    first
      | exact Bool.noConfusion h
      | (simp only [step, cmpOpStep]; exact binStep_shift st pc _)
      | (simp only [step]; exact binStep_shift st pc _)
      | rfl
      | (simp only [step]; repeat' split <;> try rfl)

/-- The bridge: on code whose remaining instructions are jump- and
target-free, `VM::run` is straight-line execution of that suffix. -/
theorem run_straight : ∀ (suffix pre : List Op) (st : VMSt) (f : Nat),
    (∀ op ∈ suffix, isJumpOrTarget op = false) → suffix.length ≤ f →
    run f (pre ++ suffix) pre.length st = seqRun suffix st := by
  intro suffix
  induction suffix with
  | nil =>
    intro pre st f _ _
    rw [seqRun]
    apply run_done
    simp
  | cons op rest ih =>
    intro pre st f hops hf
    have hlt : pre.length < (pre ++ op :: rest).length := by simp
    obtain ⟨f1, rfl⟩ : ∃ f1, f = f1 + 1 := ⟨f - 1, by simp at hf; omega⟩
    rw [run_succ _ _ _ _ hlt]
    have hget : (pre ++ op :: rest)[pre.length] = op := by
      have h1 : (pre ++ op :: rest)[pre.length]? = some op := by
        rw [List.getElem?_append_right (le_refl _)]
        simp
      exact Option.some.inj ((List.getElem?_eq_getElem hlt).symm.trans h1)
    rw [hget, step_shift op pre.length st (hops op (by simp)), seqRun]
    cases hs : step op 0 st with
    | abort => rfl
    | error e st1 => rfl
    | next pc1 st1 =>
      show run f1 (pre ++ op :: rest) (pre.length + 1) st1 = seqRun rest st1
      have hsplit : pre ++ op :: rest = (pre ++ [op]) ++ rest := by simp
      have hlen : pre.length + 1 = (pre ++ [op]).length := by simp
      rw [hsplit, hlen]
      exact ih (pre ++ [op]) st1 f1 (fun o ho => hops o (by simp [ho]))
        (by simp at hf; omega)

/-- The rewrite introduces only `MoveG`, so it preserves jump-freedom. -/
theorem optimize_no_jump : ∀ (code : List Op),
    (∀ op ∈ code, isJumpOrTarget op = false) →
    ∀ op ∈ optimize code, isJumpOrTarget op = false := by
  intro code
  induction code using optimize.induct with
  | case1 s rest ih =>
    intro h op hop
    rw [show optimize (.storeG s :: .pop :: rest) = .moveG s :: optimize rest from rfl] at hop
    rcases List.mem_cons.mp hop with hop1 | hop2
    · subst hop1; rfl
    · exact ih (fun o ho => h o (by simp [ho])) op hop2
  | case2 op1 rest hne ih =>
    intro h op hop
    rw [optimize.eq_2 op1 rest hne] at hop
    rcases List.mem_cons.mp hop with hop1 | hop2
    · subst hop1; exact h _ (by simp)
    · exact ih (fun o ho => h o (by simp [ho])) op hop2
  | case3 =>
    intro h op hop
    simp [optimize] at hop

/-- The local heart of the claim: straight-line execution of
`StoreG name; Pop` equals straight-line execution of `MoveG name`, state
by state, so the rewrite preserves `seqRun` everywhere. -/
theorem seqRun_optimize : ∀ (code : List Op) (st : VMSt),
    seqRun (optimize code) st = seqRun code st := by
  intro code
  induction code using optimize.induct with
  | case1 s rest ih =>
    intro st
    rw [show optimize (.storeG s :: .pop :: rest) = .moveG s :: optimize rest from rfl]
    cases hst : st.stack with
    | nil => simp [seqRun, step, dup, hst]
    | cons p r =>
      have hdup : dup st 0 = .ok p := (dup_ok st 0 p).mpr (by rw [hst]; simp)
      simp only [seqRun, step, hdup, hst]
      exact ih _
  | case2 op1 rest hne ih =>
    intro st
    rw [optimize.eq_2 op1 rest hne]
    cases hs : step op1 0 st with
    | abort => simp [seqRun, hs]
    | error e st1 => simp [seqRun, hs]
    | next pc1 st1 =>
      simp only [seqRun, hs]
      exact ih st1
  | case3 => intro st; rfl

/-- C3 counterexample: in `[Jmp 2, StoreG "x", Pop]` the rewrite removes
the `Pop` the jump lands on.  The original program errors with a stack
underflow at the jump target; the rewritten program runs off the end
successfully — different observable results from the same (empty)
initial state. -/
theorem optimize_claim_counterexample :
    optimize cexPeepCode = [.jmp 2, .moveG "x"] ∧
    run 3 cexPeepCode 0 stEmpty = .error .stackUnderflow stEmpty ∧
    run 3 (optimize cexPeepCode) 0 stEmpty = .ok stEmpty :=
  ⟨rfl, rfl, rfl⟩

/-- C3 (amended): on opcode sequences containing no `Jmp`, `JmpF` or
`Target` — the position-sensitive opcodes; the claim as stated fails on
sequences with jumps, see the counterexample — replacing each
`StoreG(name); Pop` with `MoveG(name)` preserves the whole observable
execution from every initial VM state: the same printed output, the
same result (success, identical error, or panic), and the same final
stack, globals and heap.  The fuel bounds only have to cover the
instruction count, which bounds the straight-line iteration count. -/
theorem optimize_preserves_straightline (code : List Op) (st : VMSt) (f f1 : Nat)
    (h : ∀ op ∈ code, isJumpOrTarget op = false)
    (hf : code.length ≤ f) (hf1 : (optimize code).length ≤ f1) :
    run f1 (optimize code) 0 st = run f code 0 st := by
  have h1 := run_straight code [] st f h hf
  have h2 := run_straight (optimize code) [] st f1 (optimize_no_jump code h) hf1
  simp only [List.nil_append, List.length_nil] at h1 h2
  rw [h1, h2, seqRun_optimize]

/-- C3 witness: `x = 7;` compiled naively as `PushI 7; StoreG x; Pop`
runs identically to its peephole form `PushI 7; MoveG x`. -/
theorem optimize_preserves_straightline_witness :
    (∀ op ∈ witPeepCode, isJumpOrTarget op = false) ∧
    witPeepCode.length ≤ 3 ∧ (optimize witPeepCode).length ≤ 2 ∧
    run 2 (optimize witPeepCode) 0 witPeepSt = run 3 witPeepCode 0 witPeepSt :=
  ⟨by decide, by decide, by decide,
    optimize_preserves_straightline witPeepCode witPeepSt 3 2 (by decide) (by decide)
      (by decide)⟩

/-! ## C2: the final code has no targets; jump addresses are bounded -/

/-- Every address the first pass records is at most the count of
non-`Target` opcodes, i.e. the final code length. -/
theorem recordTargets_bound : ∀ (code : List Op) (i : Nat) (tgt tgt1 : List Nat),
    recordTargets code i tgt = some tgt1 →
    (∀ (j a : Nat), tgt[j]? = some a → a ≠ usizeMax → a ≤ i) →
    (∀ (j a : Nat), tgt1[j]? = some a → a ≠ usizeMax →
      a ≤ i + (code.filter (fun op => !isTarget op)).length) := by
  intro code i tgt
  induction code, i, tgt using recordTargets.induct with
  | case1 i tgt =>
    intro tgt1 h hinv j a hj ha
    simp only [recordTargets, Option.some.injEq] at h
    subst h
    simpa using hinv j a hj ha
  | case2 id rest i tgt hlt ih =>
    intro tgt1 h hinv j a hj ha
    simp only [recordTargets] at h
    rw [if_pos hlt] at h
    have hinv1 : ∀ (j a : Nat), (tgt.set id i)[j]? = some a → a ≠ usizeMax → a ≤ i := by
      intro j a hj ha
      rw [List.getElem?_set] at hj
      by_cases hij : id = j
      · simp [hij, hlt] at hj
        omega
      · rw [if_neg hij] at hj
        exact hinv j a hj ha
    have := ih tgt1 h hinv1 j a hj ha
    simpa [isTarget] using this
  | case3 id rest i tgt hnlt =>
    intro tgt1 h _ j a _ _
    simp only [recordTargets] at h
    rw [if_neg hnlt] at h
    exact Option.noConfusion h
  | case4 op rest i tgt hne ih =>
    intro tgt1 h hinv j a hj ha
    rw [recordTargets.eq_3 i tgt op rest hne] at h
    have hinv1 : ∀ (j a : Nat), tgt[j]? = some a → a ≠ usizeMax → a ≤ i + 1 := by
      intro j a hj ha
      have := hinv j a hj ha
      omega
    have hrec := ih tgt1 h hinv1 j a hj ha
    have hopnt : isTarget op = false := by
      cases op <;> first | rfl | exact absurd rfl (hne _)
    rw [List.filter_cons]
    simp [hopnt]
    omega

/-- If the check pass succeeds, every jump's target id was recorded. -/
theorem checkJumps_sound : ∀ (code : List Op) (tgt : List Nat),
    checkJumps tgt code = .ok () →
    ∀ id, (Op.jmp id ∈ code ∨ Op.jmpF id ∈ code) →
      ∃ a, tgt[id]? = some a ∧ a ≠ usizeMax := by
  intro code
  induction code with
  | nil =>
    intro tgt h id hid
    simp at hid
  | cons op rest ih =>
    intro tgt h id hid
    cases op with
    | jmp id1 =>
      simp only [checkJumps] at h
      split at h
      · exact RRes.noConfusion h
      · rename_i a ht
        split at h
        · exact RRes.noConfusion h
        · rename_i haM
          rcases hid with hid | hid
          · rcases List.mem_cons.mp hid with hid1 | hid1
            · obtain rfl : id1 = id := by injection hid1.symm
              exact ⟨a, ht, haM⟩
            · exact ih tgt h id (Or.inl hid1)
          · rcases List.mem_cons.mp hid with hid1 | hid1
            · exact Op.noConfusion hid1.symm
            · exact ih tgt h id (Or.inr hid1)
    | jmpF id1 =>
      simp only [checkJumps] at h
      split at h
      · exact RRes.noConfusion h
      · rename_i a ht
        split at h
        · exact RRes.noConfusion h
        · rename_i haM
          rcases hid with hid | hid
          · rcases List.mem_cons.mp hid with hid1 | hid1
            · exact Op.noConfusion hid1.symm
            · exact ih tgt h id (Or.inl hid1)
          · rcases List.mem_cons.mp hid with hid1 | hid1
            · obtain rfl : id1 = id := by injection hid1.symm
              exact ⟨a, ht, haM⟩
            · exact ih tgt h id (Or.inr hid1)
    | _ =>
      rcases hid with hid | hid
      all_goals {
        rcases List.mem_cons.mp hid with hid1 | hid1
        · exact Op.noConfusion hid1.symm
        · first
            | exact ih tgt h id (Or.inl hid1)
            | exact ih tgt h id (Or.inr hid1) }

/-- A mapped opcode keeps its `Target`-ness (never a target, in fact,
unless the original was). -/
theorem mapJumpOp_isTarget (tgt : List Nat) (op op1 : Op)
    (h : mapJumpOp tgt op = some op1) : isTarget op1 = isTarget op := by
  cases op
  case jmp id =>
    simp only [mapJumpOp] at h
    cases ht : tgt[id]? with
    | none => rw [ht] at h; simp at h
    | some a =>
      rw [ht] at h
      simp at h
      subst h
      rfl
  case jmpF id =>
    simp only [mapJumpOp] at h
    cases ht : tgt[id]? with
    | none => rw [ht] at h; simp at h
    | some a =>
      rw [ht] at h
      simp at h
      subst h
      rfl
  all_goals (simp only [mapJumpOp, Option.some.injEq] at h; subst h; rfl)

/-- A mapped `Jmp` comes from a `Jmp` whose id the table sends to that
address. -/
theorem mapJumpOp_jmp (tgt : List Nat) (op : Op) (a : Nat)
    (h : mapJumpOp tgt op = some (.jmp a)) :
    ∃ id, op = .jmp id ∧ tgt[id]? = some a := by
  cases op <;> simp_all [mapJumpOp]

/-- A mapped `JmpF` comes from a `JmpF` whose id the table sends to that
address. -/
theorem mapJumpOp_jmpF (tgt : List Nat) (op : Op) (a : Nat)
    (h : mapJumpOp tgt op = some (.jmpF a)) :
    ∃ id, op = .jmpF id ∧ tgt[id]? = some a := by
  cases op <;> simp_all [mapJumpOp]

/-- What the third pass guarantees about its output. -/
theorem mapJumps_spec : ∀ (code1 : List Op) (tgt : List Nat) (v : List Op),
    mapJumps tgt code1 = some v →
    v.length = code1.length ∧
    ((∀ op ∈ code1, isTarget op = false) → ∀ op ∈ v, isTarget op = false) ∧
    (∀ a, Op.jmp a ∈ v → ∃ id, Op.jmp id ∈ code1 ∧ tgt[id]? = some a) ∧
    (∀ a, Op.jmpF a ∈ v → ∃ id, Op.jmpF id ∈ code1 ∧ tgt[id]? = some a) := by
  intro code1
  induction code1 with
  | nil =>
    intro tgt v h
    simp only [mapJumps, Option.some.injEq] at h
    subst h
    simp
  | cons op rest ih =>
    intro tgt v h
    simp only [mapJumps] at h
    cases hm : mapJumpOp tgt op with
    | none => rw [hm] at h; exact Option.noConfusion h
    | some op1 =>
      rw [hm] at h
      cases hr : mapJumps tgt rest with
      | none => rw [hr] at h; exact Option.noConfusion h
      | some rest1 =>
        rw [hr] at h
        simp only [Option.some.injEq] at h
        subst h
        obtain ⟨hlen, hnt, hjm, hjf⟩ := ih tgt rest1 hr
        refine ⟨by simp [hlen], ?_, ?_, ?_⟩
        · intro hcode op2 hop2
          rcases List.mem_cons.mp hop2 with h2 | h2
          · subst h2
            rw [mapJumpOp_isTarget tgt op _ hm]
            exact hcode op (by simp)
          · exact hnt (fun o ho => hcode o (by simp [ho])) op2 h2
        · intro a ha
          rcases List.mem_cons.mp ha with h2 | h2
          · obtain ⟨id, hop, hid⟩ := mapJumpOp_jmp tgt op a (h2 ▸ hm)
            exact ⟨id, by simp [hop], hid⟩
          · obtain ⟨id, hmem, hid⟩ := hjm a h2
            exact ⟨id, by simp [hmem], hid⟩
        · intro a ha
          rcases List.mem_cons.mp ha with h2 | h2
          · obtain ⟨id, hop, hid⟩ := mapJumpOp_jmpF tgt op a (h2 ▸ hm)
            exact ⟨id, by simp [hop], hid⟩
          · obtain ⟨id, hmem, hid⟩ := hjf a h2
            exact ⟨id, by simp [hmem], hid⟩

/-- What a successful `expand_targets` guarantees: no `Target` marker
survives, and every jump address is at most the final code length. -/
theorem expandTargets_ok (c : Compiler) (v : List Op) (h : expandTargets c = .ok v) :
    (∀ op ∈ v, isTarget op = false) ∧
    (∀ a : Nat, Op.jmp a ∈ v ∨ Op.jmpF a ∈ v → a ≤ v.length) := by
  unfold expandTargets at h
  cases hrec : recordTargets c.code 0 (List.replicate c.targetCount usizeMax) with
  | none => simp only [hrec] at h; exact RRes.noConfusion h
  | some tgt =>
    simp only [hrec] at h
    cases hchk : checkJumps tgt c.code with
    | abort => simp only [hchk] at h; exact RRes.noConfusion h
    | error e => simp only [hchk] at h; exact RRes.noConfusion h
    | ok u =>
      simp only [hchk] at h
      cases hmap : mapJumps tgt (c.code.filter fun op => !isTarget op) with
      | none => simp only [hmap] at h; exact RRes.noConfusion h
      | some v1 =>
        simp only [hmap, RRes.ok.injEq] at h
        subst h
        obtain ⟨hlen, hnt, hjm, hjf⟩ :=
          mapJumps_spec (c.code.filter fun op => !isTarget op) tgt v1 hmap
        have hbound := recordTargets_bound c.code 0 _ tgt hrec (by
          intro j a hj ha
          rw [List.getElem?_replicate] at hj
          by_cases hjc : j < c.targetCount
          · rw [if_pos hjc] at hj
            exact absurd (Option.some.inj hj).symm ha
          · rw [if_neg hjc] at hj
            exact Option.noConfusion hj)
        constructor
        · exact hnt (fun op hop => by simpa using List.of_mem_filter hop)
        · intro a ha
          have key : ∃ id : Nat, tgt[id]? = some a ∧
              ((Op.jmp id ∈ c.code) ∨ (Op.jmpF id ∈ c.code)) := by
            rcases ha with ha | ha
            · obtain ⟨id, hmem, hid⟩ := hjm a ha
              exact ⟨id, hid, Or.inl (List.mem_of_mem_filter hmem)⟩
            · obtain ⟨id, hmem, hid⟩ := hjf a ha
              exact ⟨id, hid, Or.inr (List.mem_of_mem_filter hmem)⟩
          obtain ⟨id, hid, hmem⟩ := key
          obtain ⟨a1, ha1, ha1M⟩ := checkJumps_sound c.code tgt hchk id hmem
          have haa1 : a = a1 := by
            rw [hid] at ha1
            exact Option.some.inj ha1
          subst haa1
          have := hbound id a hid ha1M
          rw [hlen]
          simpa using this

/-- C2 counterexample: compiling the single statement `while 0 { }`
yields `[PushI 0, JmpF 3, Jmp 0]`: the loop-exit address 3 equals the
final code length, so it is not a valid instruction index — execution
at pc 3 is ordinary loop exit, not an instruction. -/
theorem build_jump_address_at_code_length :
    buildProgram [cexLoopAst] = .ok cexLoopCode ∧
    Op.jmpF 3 ∈ cexLoopCode ∧ ¬ (3 < cexLoopCode.length) :=
  ⟨rfl, by decide, by decide⟩

/-- C2 (amended): for every sequence of ASTs fed to the compiler, the
opcode vector `build()` returns contains no `Target` marker, and every
`Jmp` and `JmpF` holds an absolute address that is AT MOST the length of
the final vector — address = length occurs (a jump to the loop exit at
the end of the program, see the counterexample) and makes the VM exit
its loop normally. -/
theorem build_no_target_and_bounded_jumps :
    ∀ (asts : List Ast) (v : List Op), buildProgram asts = .ok v →
      (∀ op ∈ v, isTarget op = false) ∧
      (∀ a : Nat, Op.jmp a ∈ v ∨ Op.jmpF a ∈ v → a ≤ v.length) := by
  intro asts v h
  unfold buildProgram at h
  cases hf : feedAll { code := [], targetCount := 0 } asts with
  | abort => simp only [hf] at h; exact RRes.noConfusion h
  | error e => simp only [hf] at h; exact RRes.noConfusion h
  | ok c =>
    simp only [hf] at h
    unfold build at h
    exact expandTargets_ok _ v h

/-- C2 witness: the compiled `while 0 { }` program has no targets and
all its jump addresses are bounded by the code length. -/
theorem build_no_target_and_bounded_jumps_witness :
    buildProgram [cexLoopAst] = .ok cexLoopCode ∧
    (∀ op ∈ cexLoopCode, isTarget op = false) ∧
    (∀ a : Nat, Op.jmp a ∈ cexLoopCode ∨ Op.jmpF a ∈ cexLoopCode →
      a ≤ cexLoopCode.length) :=
  ⟨rfl, (build_no_target_and_bounded_jumps [cexLoopAst] cexLoopCode rfl).1,
    (build_no_target_and_bounded_jumps [cexLoopAst] cexLoopCode rfl).2⟩


/-! ## C5: garbage collection preserves roots; free list = None slots -/

/-- The mark loop terminates (returning a marking of unchanged length)
whenever every heap-stored pointer and every work-list pointer is in
range. -/
theorem markLoop_total (heap : Heap) (hr : heapPtrsInRange heap) :
    ∀ (marked : List Bool) (ws : List HeapPtr),
      marked.length = heap.length →
      (∀ p ∈ ws, p < heap.length) →
      ∃ m, markLoop heap marked ws = some m ∧ m.length = heap.length := by
  intro marked ws
  induction marked, ws using markLoop.induct heap with
  | case1 marked =>
    intro hlen _
    exact ⟨marked, by simp [markLoop], hlen⟩
  | case2 marked p rest h hm ih =>
    intro hlen hws
    obtain ⟨m, h2, hl⟩ := ih hlen (fun q hq => hws q (List.mem_cons_of_mem _ hq))
    exact ⟨m, by simp [markLoop, h, hm, h2], hl⟩
  | case3 marked p rest h hm hnone =>
    intro hlen hws
    rw [List.getElem?_eq_none_iff] at hnone
    exact absurd (hws p (List.mem_cons_self p rest)) (Nat.not_lt.mpr hnone)
  | case4 marked p rest h hm hslot ih =>
    intro hlen hws
    obtain ⟨m, h2, hl⟩ := ih hlen (fun q hq => hws q (List.mem_cons_of_mem _ hq))
    exact ⟨m, by simp [markLoop, h, hm, hslot, h2], hl⟩
  | case5 marked p rest h hm v hslot ih =>
    intro hlen hws
    have hmark : ∀ q ∈ v.mark, q < heap.length := by
      cases v with
      | int n => simp [Value.mark]
      | str s => simp [Value.mark]
      | list l => exact hr p l hslot
    have hws1 : ∀ q ∈ v.mark.reverse ++ rest, q < heap.length := by
      intro q hq
      rcases List.mem_append.mp hq with hq | hq
      · exact hmark q (List.mem_reverse.mp hq)
      · exact hws q (List.mem_cons_of_mem _ hq)
    obtain ⟨m, h2, hl⟩ := ih (by simpa using hlen) hws1
    exact ⟨m, by simp [markLoop, h, hm, hslot, h2], hl⟩
  | case6 marked p rest hnot =>
    intro hlen hws
    exact absurd (hlen.symm ▸ hws p (List.mem_cons_self p rest)) hnot

/-- The mark loop never unmarks a slot. -/
theorem markLoop_mono (heap : Heap) :
    ∀ (marked : List Bool) (ws : List HeapPtr) (m : List Bool),
      markLoop heap marked ws = some m →
      ∀ i : Nat, marked[i]? = some true → m[i]? = some true := by
  intro marked ws
  induction marked, ws using markLoop.induct heap with
  | case1 marked =>
    intro m hml i hi
    simp [markLoop] at hml
    exact hml ▸ hi
  | case2 marked p rest h hm ih =>
    intro m hml i hi
    simp only [markLoop, dif_pos h, dif_pos hm] at hml
    exact ih m hml i hi
  | case3 marked p rest h hm hnone =>
    intro m hml i hi
    simp [markLoop, h, hm, hnone] at hml
  | case4 marked p rest h hm hslot ih =>
    intro m hml i hi
    simp only [markLoop, dif_pos h, dif_neg hm, hslot] at hml
    exact ih m hml i hi
  | case5 marked p rest h hm v hslot ih =>
    intro m hml i hi
    simp only [markLoop, dif_pos h, dif_neg hm, hslot] at hml
    refine ih m hml i ?_
    by_cases hpi : p = i
    · subst hpi
      simp [List.getElem?_set, h]
    · simp [List.getElem?_set, hpi, hi]
  | case6 marked p rest hnot =>
    intro m hml i hi
    simp [markLoop, hnot] at hml

/-- Every work-list pointer whose slot holds a value ends up marked when
the mark loop completes. -/
theorem markLoop_marks (heap : Heap) :
    ∀ (marked : List Bool) (ws : List HeapPtr) (m : List Bool),
      markLoop heap marked ws = some m →
      ∀ p ∈ ws, (∃ v, heap[p]? = some (some v)) → m[p]? = some true := by
  intro marked ws
  induction marked, ws using markLoop.induct heap with
  | case1 marked =>
    intro m hml p hp _
    exact absurd hp (List.not_mem_nil p)
  | case2 marked p rest h hm ih =>
    intro m hml q hq hv
    simp only [markLoop, dif_pos h, dif_pos hm] at hml
    rcases List.mem_cons.mp hq with hq | hq
    · subst hq
      exact markLoop_mono heap marked rest m hml q
        (by rw [List.getElem?_eq_getElem h, hm])
    · exact ih m hml q hq hv
  | case3 marked p rest h hm hnone =>
    intro m hml q hq hv
    simp [markLoop, h, hm, hnone] at hml
  | case4 marked p rest h hm hslot ih =>
    intro m hml q hq hv
    simp only [markLoop, dif_pos h, dif_neg hm, hslot] at hml
    rcases List.mem_cons.mp hq with hq | hq
    · subst hq
      obtain ⟨v, hv⟩ := hv
      rw [hslot] at hv
      exact Option.noConfusion (Option.some.inj hv)
    · exact ih m hml q hq hv
  | case5 marked p rest h hm v hslot ih =>
    intro m hml q hq hv
    simp only [markLoop, dif_pos h, dif_neg hm, hslot] at hml
    rcases List.mem_cons.mp hq with hq | hq
    · subst hq
      refine markLoop_mono heap (marked.set q true) _ m hml q ?_
      simp [List.getElem?_set, h]
    · exact ih m hml q (List.mem_append_right _ hq) hv
  | case6 marked p rest hnot =>
    intro m hml q hq hv
    simp [markLoop, hnot] at hml

/-- When the mark loop starts from a marking in which only live slots
are marked, every slot marked on completion is live. -/
theorem markLoop_live (heap : Heap) :
    ∀ (marked : List Bool) (ws : List HeapPtr) (m : List Bool),
      markLoop heap marked ws = some m →
      (∀ i : Nat, marked[i]? = some true → ∃ v, heap[i]? = some (some v)) →
      ∀ i : Nat, m[i]? = some true → ∃ v, heap[i]? = some (some v) := by
  intro marked ws
  induction marked, ws using markLoop.induct heap with
  | case1 marked =>
    intro m hml hinv i hi
    simp [markLoop] at hml
    exact hinv i (hml ▸ hi)
  | case2 marked p rest h hm ih =>
    intro m hml hinv i hi
    simp only [markLoop, dif_pos h, dif_pos hm] at hml
    exact ih m hml hinv i hi
  | case3 marked p rest h hm hnone =>
    intro m hml hinv i hi
    simp [markLoop, h, hm, hnone] at hml
  | case4 marked p rest h hm hslot ih =>
    intro m hml hinv i hi
    simp only [markLoop, dif_pos h, dif_neg hm, hslot] at hml
    exact ih m hml hinv i hi
  | case5 marked p rest h hm v hslot ih =>
    intro m hml hinv i hi
    simp only [markLoop, dif_pos h, dif_neg hm, hslot] at hml
    refine ih m hml ?_ i hi
    intro j hj
    rw [List.getElem?_set] at hj
    by_cases hpj : p = j
    · exact hpj ▸ ⟨v, hslot⟩
    · simp only [if_neg hpj] at hj
      exact hinv j hj
  | case6 marked p rest hnot =>
    intro m hml hinv i hi
    simp [markLoop, hnot] at hml


/-- C5: as stated the claim fails — on `gcCexSt` every stack and
globals entry points to an allocated (`some`) heap slot, yet `collect`
never completes: the stored list holds the out-of-range pointer 5 and
the mark phase panics on `marked[ptr.0]` (modelled as `none`). -/
theorem collect_claim_counterexample :
    (∀ p ∈ gcCexSt.stack ++ topValues gcCexSt.top, ∃ v, heapGet gcCexSt.heap p = .ok v) ∧
    collect gcCexSt = none := by
  constructor
  · intro p hp
    simp [gcCexSt, topValues] at hp
    subst hp
    exact ⟨.list [5], rfl⟩
  · simp [collect, markLoop, topValues, Value.mark, gcCexSt]

/-- C5 (amended): when every stack and globals entry points to an
allocated heap slot AND every pointer stored inside a heap list value is
in range, `VM::collect` completes; the stack and globals are unchanged,
every stack and globals entry still points to a slot holding a value,
and the rebuilt free list holds exactly the indices of the slots set to
`None` (so no live value is listed in the free list). -/
theorem collect_preserves_roots_and_free_list (st : VMSt)
    (hroots : ∀ p ∈ st.stack ++ topValues st.top, ∃ v, heapGet st.heap p = .ok v)
    (hrange : heapPtrsInRange st.heap) :
    ∃ st1, collect st = some st1 ∧
      st1.stack = st.stack ∧ st1.top = st.top ∧
      (∀ p ∈ st1.stack ++ topValues st1.top, ∃ v, heapGet st1.heap p = .ok v) ∧
      (∀ i : Nat, i ∈ st1.freeList ↔ i < st1.heap.length ∧ st1.heap[i]? = some none) := by
  have hrootmem : ∀ (p : HeapPtr),
      p ∈ (st.stack.reverse ++ topValues st.top).reverse ↔
        p ∈ st.stack ++ topValues st.top := by
    intro p
    simp only [List.mem_reverse, List.mem_append]
  have hws0 : ∀ p ∈ (st.stack.reverse ++ topValues st.top).reverse, p < st.heap.length := by
    intro p hp
    obtain ⟨v, hv⟩ := hroots p ((hrootmem p).mp hp)
    rw [heapGet_ok] at hv
    exact (List.getElem?_eq_some.mp hv).1
  obtain ⟨m, hml, hmlen⟩ := markLoop_total st.heap hrange
    (List.replicate st.heap.length false) ((st.stack.reverse ++ topValues st.top).reverse)
    (by simp) hws0
  have hmarked_live : ∀ i : Nat, m[i]? = some true → ∃ v, st.heap[i]? = some (some v) := by
    refine markLoop_live st.heap _ _ m hml ?_
    intro i hi
    rw [List.getElem?_replicate] at hi
    split at hi
    · exact absurd (Option.some.inj hi) (by simp)
    · exact Option.noConfusion hi
  have hroot_marked : ∀ p ∈ st.stack ++ topValues st.top, m[p]? = some true := by
    intro p hp
    obtain ⟨v, hv⟩ := hroots p hp
    rw [heapGet_ok] at hv
    exact markLoop_marks st.heap _ _ m hml p ((hrootmem p).mpr hp) ⟨v, hv⟩
  refine ⟨{ st with
      heap := st.heap.enum.map (fun iv => if m.getD iv.1 false then iv.2 else none),
      freeList := ((List.range st.heap.length).filter (fun i => !(m.getD i false))).reverse },
    ?_, rfl, rfl, ?_, ?_⟩
  · simp only [collect, hml]
  · intro p hp
    have hp1 : p ∈ st.stack ++ topValues st.top := hp
    obtain ⟨v, hv⟩ := hroots p hp1
    rw [heapGet_ok] at hv
    have hm1 := hroot_marked p hp1
    have hgd : m.getD p false = true := by
      rw [List.getD_eq_getElem?_getD, hm1]
      rfl
    refine ⟨v, ?_⟩
    rw [heapGet_ok]
    show (st.heap.enum.map (fun iv => if m.getD iv.1 false then iv.2 else none))[p]?
      = some (some v)
    rw [List.getElem?_map, List.getElem?_enum, hv]
    simp only [Option.map_some', hgd]
    simp
  · intro i
    show i ∈ ((List.range st.heap.length).filter (fun i => !(m.getD i false))).reverse ↔
      i < (st.heap.enum.map (fun iv => if m.getD iv.1 false then iv.2 else none)).length ∧
      (st.heap.enum.map (fun iv => if m.getD iv.1 false then iv.2 else none))[i]? = some none
    constructor
    · intro hi
      rw [List.mem_reverse, List.mem_filter] at hi
      obtain ⟨hir0, hif⟩ := hi
      rw [List.mem_range] at hir0
      have hgd : m.getD i false = false := by
        cases hmd : m.getD i false
        · rfl
        · rw [hmd] at hif
          exact absurd hif (by simp)
      constructor
      · simpa [List.length_map, List.enum_length] using hir0
      · rw [List.getElem?_map, List.getElem?_enum, List.getElem?_eq_getElem hir0]
        simp only [Option.map_some', hgd]
        simp
    · intro hi
      obtain ⟨hlen1, hslot⟩ := hi
      have hir : i < st.heap.length := by
        simpa [List.length_map, List.enum_length] using hlen1
      rw [List.getElem?_map, List.getElem?_enum, List.getElem?_eq_getElem hir] at hslot
      simp only [Option.map_some', Option.some.injEq] at hslot
      rw [List.mem_reverse, List.mem_filter]
      refine ⟨List.mem_range.mpr hir, ?_⟩
      cases hmd : m.getD i false with
      | false => rfl
      | true =>
        exfalso
        rw [hmd] at hslot
        simp at hslot
        have him : i < m.length := by rw [hmlen]; exact hir
        have hmi : m[i] = true := by
          rw [← List.getD_eq_getElem m false him]
          exact hmd
        have hm1 : m[i]? = some true := by
          rw [List.getElem?_eq_getElem him, hmi]
        obtain ⟨v, hv⟩ := hmarked_live i hm1
        rw [List.getElem?_eq_getElem hir, hslot] at hv
        exact Option.noConfusion (Option.some.inj hv)

/-- C5 witness: collecting a state with one reachable and one garbage
integer slot succeeds, keeps the root pointing at its value, and the
free list lists exactly the freed slot. -/
theorem collect_preserves_roots_and_free_list_witness :
    ∃ st1, collect gcWitSt = some st1 ∧
      st1.stack = gcWitSt.stack ∧ st1.top = gcWitSt.top ∧
      (∀ p ∈ st1.stack ++ topValues st1.top, ∃ v, heapGet st1.heap p = .ok v) ∧
      (∀ i : Nat, i ∈ st1.freeList ↔ i < st1.heap.length ∧ st1.heap[i]? = some none) :=
  collect_preserves_roots_and_free_list gcWitSt
    (by
      intro p hp
      simp [gcWitSt, topValues] at hp
      subst hp
      exact ⟨.int 1, rfl⟩)
    (by
      intro i l hil
      rcases i with _ | _ | i <;> simp [gcWitSt] at hil)

end Script
